import Mathlib

/-!
Verification of the DXF export post-processing logic of
src/src/dxf.py (function export_layers_to_dxf).

The development shallowly embeds:
* the header-patching text transform (lines 150-181 of dxf.py):
  the global replacement of the version token AC1015 by AC1021
  (content.replace, line 158), the regex substitution on the
  three-line $INSUNITS record (lines 162-166) and the insertion of
  a fresh record before the first ENDSEC found after HEADER
  (lines 167-172, with Python str.find semantics, including the
  negative start index that arises when HEADER is absent);
* the layer selection loop (lines 40-45), the extent fold
  (lines 66-71), the vector-layer dictionary (lines 102-109) and
  the collaborator call sequence of the export pipeline.

Documents are lists of characters.  The Python regex classes for
whitespace and digits are modelled by their ASCII parts, which is
exact on the documents the exporter produces.
-/

namespace Dxf

/-- ASCII part of the character class matched by the whitespace escape
in the Python regex of dxf.py line 165. -/
def pySpace (c : Char) : Bool :=
  c == ' ' || c == '\t' || c == '\n' || c == '\r' || c == '\x0b' || c == '\x0c'

/-- ASCII part of the character class matched by the digit escape in the
Python regex of dxf.py line 165. -/
def pyDigit (c : Char) : Bool := c.isDigit

/-- Source version token replaced at dxf.py line 158, the characters
of AC1015. -/
def verSrc : List Char := ['A', 'C', '1', '0', '1', '5']

/-- Target version token written at dxf.py line 158, the characters of
AC1021. -/
def verTgt : List Char := ['A', 'C', '1', '0', '2', '1']

/-- Unit directive token used in the containment test at line 162. -/
def insTok : List Char := ['$', 'I', 'N', 'S', 'U', 'N', 'I', 'T', 'S']

/-- Leading literal of the regex at line 165: the directive name and the
newline that must immediately follow it. -/
def insHead : List Char := ['$', 'I', 'N', 'S', 'U', 'N', 'I', 'T', 'S', '\n']

/-- Group-code literal of the regex at line 165. -/
def g70 : List Char := ['7', '0', '\n']

/-- Section marker searched at line 169. -/
def hdrTok : List Char := ['H', 'E', 'A', 'D', 'E', 'R']

/-- Section end marker searched at line 169. -/
def endTok : List Char := ['E', 'N', 'D', 'S', 'E', 'C']

/-- Record inserted before ENDSEC at lines 171-172. -/
def unitsDef : List Char :=
  ['\n', '$', 'I', 'N', 'S', 'U', 'N', 'I', 'T', 'S', '\n',
   ' ', '7', '0', '\n', ' ', ' ', ' ', ' ', ' ', '6', '\n']

/-- Substring containment, as Python's in operator on strings
(dxf.py line 162). -/
def occursIn (pat : List Char) : List Char → Bool
  | [] => pat.isEmpty
  | c :: cs => pat.isPrefixOf (c :: cs) || occursIn pat cs

/-- Number of positions at which the pattern occurs. -/
def occCount (pat : List Char) : List Char → Nat
  | [] => if pat.isEmpty then 1 else 0
  | c :: cs => (if pat.isPrefixOf (c :: cs) then 1 else 0) + occCount pat cs

/-- Leftmost occurrence scan, carrying the absolute index of the first
scanned position; the engine behind Python's str.find. -/
def occFrom (pat : List Char) : List Char → Nat → Option Nat
  | [], i => if pat.isEmpty then some i else none
  | c :: cs, i => if pat.isPrefixOf (c :: cs) then some i else occFrom pat cs (i + 1)

/-- Python str.find(pat, start) for a non-negative start index,
returning an index instead of -1. -/
def pyFind (s pat : List Char) (start : Nat) : Option Nat :=
  occFrom pat (s.drop start) start

/-- Insertion point computed at dxf.py line 169:
content.find('ENDSEC', content.find('HEADER')).  When HEADER is absent
the inner find yields -1, which Python's str.find clamps to the index
of the last character, so the outer search scans only the final
character of the document. -/
def headerEnd (s : List Char) : Option Nat :=
  match pyFind s hdrTok 0 with
  | some h => pyFind s endTok h
  | none => pyFind s endTok (s.length - 1)

/-- A HEADER marker followed (at an equal or later position) by an
ENDSEC marker, the section pair the specification speaks about. -/
def hasHeaderPair (s : List Char) : Prop :=
  ∃ i j, i ≤ j ∧ hdrTok.isPrefixOf (s.drop i) = true ∧ endTok.isPrefixOf (s.drop j) = true

/-- Fueled scan of Python str.replace('AC1015', 'AC1021') (dxf.py line
158): leftmost occurrences are replaced and scanning resumes after the
replacement. -/
def verRepl : Nat → List Char → List Char
  | 0, s => s
  | _ + 1, [] => []
  | n + 1, c :: cs =>
      if verSrc.isPrefixOf (c :: cs) then verTgt ++ verRepl n (cs.drop 5)
      else c :: verRepl n cs

/-- Version rewrite step of the patch (dxf.py line 158). -/
def rV (s : List Char) : List Char := verRepl s.length s

/-- Matcher for the Python regex of dxf.py line 165 at the current
position.  The greedy whitespace stars reduce to maximal whitespace
runs because no whitespace character can begin the literals 70 and the
digit run; the greedy digit plus is the maximal nonempty digit run.
On success it returns the text of the first capture group together
with the text that follows the match. -/
def matchIns (s : List Char) : Option (List Char × List Char) :=
  if insHead.isPrefixOf s then
    if g70.isPrefixOf ((s.drop 10).dropWhile pySpace) then
      if ((((s.drop 10).dropWhile pySpace).drop 3).dropWhile pySpace).takeWhile pyDigit = [] then
        none
      else
        some (insHead ++ (s.drop 10).takeWhile pySpace ++ g70
                ++ ((((s.drop 10).dropWhile pySpace).drop 3).takeWhile pySpace),
              ((((s.drop 10).dropWhile pySpace).drop 3).dropWhile pySpace).dropWhile pyDigit)
    else none
  else none

/-- Fueled scan of re.sub for the pattern of line 165: at each position
the matcher is tried; on success the capture group is emitted followed
by the replacement digit 6 and scanning resumes after the match, as
Python's re.sub does. -/
def subRepl : Nat → List Char → List Char
  | 0, s => s
  | _ + 1, [] => []
  | n + 1, c :: cs =>
      match matchIns (c :: cs) with
      | some (g, r) => g ++ '6' :: subRepl n r
      | none => c :: subRepl n cs

/-- Unit-directive substitution step of the patch (dxf.py line 166). -/
def subAll (s : List Char) : List Char := subRepl s.length s

/-- Header patch applied to the exported document, dxf.py lines
158-172: version rewrite, then either the $INSUNITS substitution (when
the token occurs in the rewritten text) or the insertion of a fresh
record before the first ENDSEC after HEADER (silently skipped when no
insertion point is found). -/
def patchDxf (s : List Char) : List Char :=
  if occursIn insTok (rV s) then subAll (rV s)
  else
    match headerEnd (rV s) with
    | some he => (rV s).take he ++ unitsDef ++ (rV s).drop he
    | none => rV s

/-- Modelled from the spec: the rectangle data model of section 3, an
explicit empty state distinct from any coordinate rectangle, with
rational coordinates standing for the host's floating point
coordinates (only order operations are used, so no rounding is
involved).  The host type QgsRectangle itself lives outside src. -/
inductive Rectangle
  | empty : Rectangle
  | rect (minX minY maxX maxY : ℚ) : Rectangle
deriving DecidableEq

/-- Emptiness test used in the fold at dxf.py line 68. -/
def Rectangle.isEmpty : Rectangle → Bool
  | .empty => true
  | .rect _ _ _ _ => false

/-- Modelled from the spec: combineExtentWith (dxf.py line 71) is the
smallest rectangle containing both arguments, the empty rectangle
being neutral. -/
def Rectangle.combineExtentWith : Rectangle → Rectangle → Rectangle
  | .empty, r => r
  | r, .empty => r
  | .rect a b c d, .rect a2 b2 c2 d2 =>
      .rect (min a a2) (min b b2) (max c c2) (max d d2)

/-- Read-only layer descriptor exposed by the host project
(spec section 3; the fields the code of dxf.py consults). -/
structure MapLayer where
  id : String
  name : String
  isVector : Bool
  visible : Bool
  extent : Rectangle
deriving DecidableEq

/-- Extent fold of dxf.py lines 66-71: start from the empty rectangle;
the first layer replaces an empty accumulator, later layers are
combined in. -/
def combinedExtent (ls : List MapLayer) : Rectangle :=
  ls.foldl
    (fun acc l => if acc.isEmpty then l.extent else acc.combineExtentWith l.extent)
    Rectangle.empty

/-- Host lookup QgsProject.mapLayersByName (dxf.py line 43): all layers
bearing the given name, in host order. -/
def mapLayersByName (projectLayers : List MapLayer) (layerName : String) : List MapLayer :=
  projectLayers.filter (fun l => l.name == layerName)

/-- Selection loop of dxf.py lines 40-45: each requested name is
resolved; when at least one layer matches, the first match is
appended, otherwise the name is skipped. -/
def selectByNames (names : List String) (projectLayers : List MapLayer) : List MapLayer :=
  names.foldl
    (fun acc layerName =>
      match mapLayersByName projectLayers layerName with
      | [] => acc
      | l :: _ => acc ++ [l])
    []

/-- Branch of dxf.py lines 47-51: all visible layers in tree order. -/
def visibleLayers (projectLayers : List MapLayer) : List MapLayer :=
  projectLayers.filter (fun l => l.visible)

/-- Python dict insertion: an existing key keeps its position and gets
the new value, a new key is appended. -/
def dictInsert (k : String) (v : MapLayer) :
    List (String × MapLayer) → List (String × MapLayer)
  | [] => [(k, v)]
  | (k2, v2) :: rest =>
      if k2 = k then (k, v) :: rest else (k2, v2) :: dictInsert k v rest

/-- The layers_dict of dxf.py lines 102-105: vector layers keyed by
layer id. -/
def layersDict (ls : List MapLayer) : List (String × MapLayer) :=
  ls.foldl (fun d l => if l.isVector then dictInsert l.id l d else d) []

/-- Calls made on the export collaborator. -/
inductive ExpEvent
  | createExporter
  | setSymbologyScale
  | setSourceCrs
  | setMapSettings
  | setVectorLayers
  | writeToFile
deriving DecidableEq

/-- Capability surface probed through hasattr in dxf.py. -/
structure ExporterCaps where
  hasSetSymbologyScale : Bool
  hasSetSourceCrs : Bool
  hasSetCrs : Bool
  hasSetVectorLayers : Bool
  hasSetLayers : Bool
deriving DecidableEq

/-- Outcome of the export pipeline. -/
inductive ExportOutcome
  | noLayers
  | noVectorLayers
  | exportFailed
  | success
deriving DecidableEq

/-- Control flow of export_layers_to_dxf (dxf.py lines 53-148) around
the collaborator: the exporter is created and configured (lines
75-100), the vector dictionary is built and tested (lines 102-109),
then the layer set is assigned and the file written (lines 112-148).
The second component records the calls made on the collaborator up to
the point the function returns. -/
def export_layers_to_dxf (caps : ExporterCaps) (writeOk : Bool)
    (toExport : List MapLayer) : ExportOutcome × List ExpEvent :=
  if toExport.isEmpty then (ExportOutcome.noLayers, [])
  else
    let evs :=
      [ExpEvent.createExporter]
        ++ (if caps.hasSetSymbologyScale then [ExpEvent.setSymbologyScale] else [])
        ++ (if caps.hasSetSourceCrs then [ExpEvent.setSourceCrs]
            else if caps.hasSetCrs then [ExpEvent.setSourceCrs] else [])
        ++ [ExpEvent.setMapSettings]
    if (layersDict toExport).isEmpty then (ExportOutcome.noVectorLayers, evs)
    else
      let evs2 := evs
        ++ (if caps.hasSetVectorLayers then [ExpEvent.setVectorLayers]
            else if caps.hasSetLayers then [ExpEvent.setVectorLayers] else [])
        ++ [ExpEvent.writeToFile]
      if writeOk then (ExportOutcome.success, evs2) else (ExportOutcome.exportFailed, evs2)

/-! Lemmas on the layer-side components. -/

theorem combineExtentWith_comm (A B : Rectangle) :
    A.combineExtentWith B = B.combineExtentWith A := by
  cases A <;> cases B <;>
    simp [Rectangle.combineExtentWith, min_comm, max_comm]

theorem combineExtentWith_assoc (A B C : Rectangle) :
    (A.combineExtentWith B).combineExtentWith C
      = A.combineExtentWith (B.combineExtentWith C) := by
  cases A <;> cases B <;> cases C <;>
    simp [Rectangle.combineExtentWith, min_assoc, max_assoc]

theorem combineExtentWith_empty_left (A : Rectangle) :
    Rectangle.empty.combineExtentWith A = A := by
  cases A <;> rfl

theorem combineExtentWith_empty_right (A : Rectangle) :
    A.combineExtentWith Rectangle.empty = A := by
  cases A <;> rfl

theorem combinedExtent_eq_foldl (ls : List MapLayer) :
    combinedExtent ls
      = ls.foldl (fun acc l => acc.combineExtentWith l.extent) Rectangle.empty := by
  have hstep :
      (fun (acc : Rectangle) (l : MapLayer) =>
          if acc.isEmpty then l.extent else acc.combineExtentWith l.extent)
        = fun acc l => acc.combineExtentWith l.extent := by
    funext acc l
    cases acc <;> simp [Rectangle.isEmpty, combineExtentWith_empty_left,
      Rectangle.combineExtentWith]
  simp [combinedExtent, hstep]

theorem selectByNames_go (step : List MapLayer → String → List MapLayer)
    (hstep : ∀ acc n, step acc n = acc ++ step [] n)
    (names : List String) (acc : List MapLayer) :
    names.foldl step acc = acc ++ names.foldl step [] := by
  induction names generalizing acc with
  | nil => simp
  | cons n ns ih =>
      simp only [List.foldl_cons]
      rw [ih (step acc n), hstep acc n, ih (step [] n), List.append_assoc]

theorem selectByNames_cons (n : String) (ns : List String) (pl : List MapLayer) :
    selectByNames (n :: ns) pl
      = (match mapLayersByName pl n with
         | [] => []
         | l :: _ => [l]) ++ selectByNames ns pl := by
  have hstep : ∀ (acc : List MapLayer) (m : String),
      (fun (acc : List MapLayer) (layerName : String) =>
        match mapLayersByName pl layerName with
        | [] => acc
        | l :: _ => acc ++ [l]) acc m
      = acc ++ (fun (acc : List MapLayer) (layerName : String) =>
        match mapLayersByName pl layerName with
        | [] => acc
        | l :: _ => acc ++ [l]) [] m := by
    intro acc m
    cases h : mapLayersByName pl m <;> simp [h]
  simp only [selectByNames, List.foldl_cons]
  rw [selectByNames_go _ hstep]
  cases h : mapLayersByName pl n <;> simp [h]

theorem selectByNames_names (names : List String) (pl : List MapLayer) :
    (selectByNames names pl).map MapLayer.name
      = names.filter (fun n => !(mapLayersByName pl n).isEmpty) := by
  induction names with
  | nil => rfl
  | cons n ns ih =>
      rw [selectByNames_cons]
      cases h : mapLayersByName pl n with
      | nil => simpa [h] using ih
      | cons l ls =>
          have hl : l ∈ mapLayersByName pl n := by rw [h]; exact List.mem_cons_self l ls
          have hname : l.name = n := by
            have := List.of_mem_filter (p := fun (l : MapLayer) => l.name == n) hl
            simpa using this
          simp [h, hname, ih]

theorem dictInsert_ne_nil (k : String) (v : MapLayer) (d : List (String × MapLayer)) :
    dictInsert k v d ≠ [] := by
  cases d with
  | nil => simp [dictInsert]
  | cons p rest =>
      obtain ⟨k2, v2⟩ := p
      by_cases h : k2 = k <;> simp [dictInsert, h]

theorem layersDict_go_ne_nil (ls : List MapLayer) (d : List (String × MapLayer))
    (hd : d ≠ []) :
    ls.foldl (fun (d : List (String × MapLayer)) (l : MapLayer) =>
      if l.isVector then dictInsert l.id l d else d) d ≠ [] := by
  induction ls generalizing d with
  | nil => simpa using hd
  | cons l ls ih =>
      simp only [List.foldl_cons]
      by_cases hv : l.isVector
      · simp only [hv, if_pos]
        exact ih _ (dictInsert_ne_nil _ _ _)
      · simp only [hv, if_neg, Bool.false_eq_true, not_false_iff]
        exact ih _ hd

theorem layersDict_empty_iff (ls : List MapLayer) :
    layersDict ls = [] ↔ ∀ l ∈ ls, l.isVector = false := by
  have main : ∀ (ms : List MapLayer),
      ms.foldl (fun (d : List (String × MapLayer)) (l : MapLayer) =>
          if l.isVector then dictInsert l.id l d else d) [] = []
        ↔ ∀ l ∈ ms, l.isVector = false := by
    intro ms
    induction ms with
    | nil => simp
    | cons l ls ih =>
        by_cases hv : l.isVector
        · constructor
          · intro h
            exfalso
            apply layersDict_go_ne_nil ls (dictInsert l.id l []) (dictInsert_ne_nil _ _ _)
            simpa [List.foldl_cons, hv] using h
          · intro h
            exact absurd (h l (List.mem_cons_self l ls)) (by simp [hv])
        · have hv' : l.isVector = false := by simpa using hv
          simp [List.foldl_cons, hv', ih]
  exact main ls

/-! Claim theorems on the layer-side components. -/

/-- C7: the extent fold combine is commutative and associative over
rectangles, the empty rectangle is its identity, the fold over the
empty layer list yields the empty rectangle, the fold over a
single-layer list yields that layer's extent exactly, and the loop of
lines 66-71 computes exactly the fold of the binary combine. -/
theorem C7_extent_fold_algebra :
    (∀ A B : Rectangle, A.combineExtentWith B = B.combineExtentWith A) ∧
    (∀ A B C : Rectangle,
        (A.combineExtentWith B).combineExtentWith C
          = A.combineExtentWith (B.combineExtentWith C)) ∧
    (∀ A : Rectangle,
        Rectangle.empty.combineExtentWith A = A ∧
        A.combineExtentWith Rectangle.empty = A) ∧
    combinedExtent [] = Rectangle.empty ∧
    (∀ L : MapLayer, combinedExtent [L] = L.extent) ∧
    (∀ ls : List MapLayer,
        combinedExtent ls
          = ls.foldl (fun acc l => acc.combineExtentWith l.extent) Rectangle.empty) := by
  refine ⟨combineExtentWith_comm, combineExtentWith_assoc,
    fun A => ⟨combineExtentWith_empty_left A, combineExtentWith_empty_right A⟩,
    rfl, fun L => ?_, combinedExtent_eq_foldl⟩
  simp [combinedExtent, Rectangle.isEmpty]

/-- C9: with an explicit name list, selection resolves each name by
exact match, silently skips unmatched names, and returns the resolved
layers in input-name order (the returned names are exactly the
requested names that match, in order); with three available layers and
one of the three requested names unmatched, the result has two
elements. -/
theorem C9_select_by_names :
    (∀ (names : List String) (pl : List MapLayer),
        (selectByNames names pl).map MapLayer.name
          = names.filter (fun n => !(mapLayersByName pl n).isEmpty)) ∧
    (selectByNames ["Road", "Ghost", "River"]
        [⟨"1", "Road", true, true, Rectangle.empty⟩,
         ⟨"2", "River", true, true, Rectangle.empty⟩,
         ⟨"3", "Wood", true, true, Rectangle.empty⟩]).length = 2 ∧
    selectByNames ["Road", "Ghost", "River"]
        [⟨"1", "Road", true, true, Rectangle.empty⟩,
         ⟨"2", "River", true, true, Rectangle.empty⟩,
         ⟨"3", "Wood", true, true, Rectangle.empty⟩]
      = [⟨"1", "Road", true, true, Rectangle.empty⟩,
         ⟨"2", "River", true, true, Rectangle.empty⟩] := by
  exact ⟨selectByNames_names, by decide, by decide⟩

/-- C10: when a requested name matches more than one available layer,
the selection contains exactly the first match in host order, never
the full match list. -/
theorem C10_first_match_only (n : String) (pl : List MapLayer)
    (l1 l2 : MapLayer) (rest : List MapLayer)
    (h : mapLayersByName pl n = l1 :: l2 :: rest) :
    selectByNames [n] pl = [l1] ∧ selectByNames [n] pl ≠ l1 :: l2 :: rest := by
  have hsel : selectByNames [n] pl = [l1] := by
    have := selectByNames_cons n [] pl
    rw [h] at this
    simpa [selectByNames] using this
  refine ⟨hsel, ?_⟩
  rw [hsel]
  intro hc
  have := congrArg List.length hc
  simp at this

/-- Witness for C10 at a concrete project with a duplicated layer
name. -/
theorem C10_first_match_only_witness :
    selectByNames ["Dup"]
        [⟨"1", "Dup", true, true, Rectangle.empty⟩,
         ⟨"2", "Dup", false, true, Rectangle.empty⟩]
      = [⟨"1", "Dup", true, true, Rectangle.empty⟩] ∧
    selectByNames ["Dup"]
        [⟨"1", "Dup", true, true, Rectangle.empty⟩,
         ⟨"2", "Dup", false, true, Rectangle.empty⟩]
      ≠ [⟨"1", "Dup", true, true, Rectangle.empty⟩,
         ⟨"2", "Dup", false, true, Rectangle.empty⟩] :=
  C10_first_match_only "Dup"
    [⟨"1", "Dup", true, true, Rectangle.empty⟩,
     ⟨"2", "Dup", false, true, Rectangle.empty⟩]
    ⟨"1", "Dup", true, true, Rectangle.empty⟩
    ⟨"2", "Dup", false, true, Rectangle.empty⟩ [] (by decide)

/-- C8 counterexample: with a selection containing a single raster
layer, the pipeline does fail with NoVectorLayers, but collaborator
calls (creating the exporter, configuring scale, CRS and map
settings) have already been made before the failure is signaled, so
the claim that no export-collaborator call is made before the failure
is false on the code. -/
theorem C8_counterexample :
    (export_layers_to_dxf ⟨true, true, true, true, true⟩ true
        [⟨"r1", "Raster", false, true, Rectangle.empty⟩]).1
      = ExportOutcome.noVectorLayers ∧
    ExpEvent.createExporter ∈
      (export_layers_to_dxf ⟨true, true, true, true, true⟩ true
        [⟨"r1", "Raster", false, true, Rectangle.empty⟩]).2 ∧
    ExpEvent.setSymbologyScale ∈
      (export_layers_to_dxf ⟨true, true, true, true, true⟩ true
        [⟨"r1", "Raster", false, true, Rectangle.empty⟩]).2 ∧
    ExpEvent.setMapSettings ∈
      (export_layers_to_dxf ⟨true, true, true, true, true⟩ true
        [⟨"r1", "Raster", false, true, Rectangle.empty⟩]).2 := by
  decide

/-- C8 amended: when the selected layers are all non-vector, the
pipeline fails with NoVectorLayers and neither the layer-set
assignment nor the file write is ever invoked on the collaborator;
the exporter construction and its scale, CRS and map-settings
configuration do happen before the failure. -/
theorem C8_no_vector_failure (caps : ExporterCaps) (writeOk : Bool)
    (ls : List MapLayer) (hne : ls ≠ [])
    (hnv : ∀ l ∈ ls, l.isVector = false) :
    (export_layers_to_dxf caps writeOk ls).1 = ExportOutcome.noVectorLayers ∧
    ExpEvent.setVectorLayers ∉ (export_layers_to_dxf caps writeOk ls).2 ∧
    ExpEvent.writeToFile ∉ (export_layers_to_dxf caps writeOk ls).2 := by
  have hdict : (layersDict ls).isEmpty = true := by
    rw [List.isEmpty_iff]
    exact (layersDict_empty_iff ls).mpr hnv
  have hls : ls.isEmpty = false := by
    cases ls with
    | nil => exact absurd rfl hne
    | cons a t => rfl
  obtain ⟨a, b, c, d, e⟩ := caps
  cases a <;> cases b <;> cases c <;>
    simp [export_layers_to_dxf, hls, hdict]

/-- Witness for C8 amended at a concrete raster-only selection. -/
theorem C8_no_vector_failure_witness :
    (export_layers_to_dxf ⟨true, false, true, true, false⟩ false
        [⟨"r1", "Raster", false, true, Rectangle.empty⟩]).1
      = ExportOutcome.noVectorLayers ∧
    ExpEvent.setVectorLayers ∉
      (export_layers_to_dxf ⟨true, false, true, true, false⟩ false
        [⟨"r1", "Raster", false, true, Rectangle.empty⟩]).2 ∧
    ExpEvent.writeToFile ∉
      (export_layers_to_dxf ⟨true, false, true, true, false⟩ false
        [⟨"r1", "Raster", false, true, Rectangle.empty⟩]).2 :=
  C8_no_vector_failure ⟨true, false, true, true, false⟩ false
    [⟨"r1", "Raster", false, true, Rectangle.empty⟩]
    (by decide) (by decide)

/-! Generic lemmas about prefixes, suffixes and occurrences. -/

theorem verSrc_eq_str : verSrc = "AC1015".toList := by decide

theorem verTgt_eq_str : verTgt = "AC1021".toList := by decide

theorem insTok_eq_str : insTok = "$INSUNITS".toList := by decide

theorem insHead_eq_str : insHead = "$INSUNITS\n".toList := by decide

theorem g70_eq_str : g70 = "70\n".toList := by decide

theorem hdrTok_eq_str : hdrTok = "HEADER".toList := by decide

theorem endTok_eq_str : endTok = "ENDSEC".toList := by decide

theorem unitsDef_eq_str : unitsDef = "\n$INSUNITS\n 70\n     6\n".toList := by decide

theorem pfx_iff (p s : List Char) : p.isPrefixOf s = true ↔ p <+: s :=
  List.isPrefixOf_iff_prefix

theorem sfx_iff (p s : List Char) : p.isSuffixOf s = true ↔ p <:+ s :=
  List.isSuffixOf_iff_suffix

theorem pfx_ext (p x y : List Char) (h : p.isPrefixOf x = true) :
    p.isPrefixOf (x ++ y) = true := by
  rw [pfx_iff] at h ⊢
  exact h.trans (List.prefix_append x y)

theorem pfx_len_le (p s : List Char) (h : p.isPrefixOf s = true) :
    p.length ≤ s.length :=
  ((pfx_iff p s).mp h).length_le

theorem pfx_head (p : List Char) (c : Char) (cs : List Char) (hp : p ≠ [])
    (h : p.isPrefixOf (c :: cs) = true) : p.head? = some c := by
  cases p with
  | nil => exact absurd rfl hp
  | cons a as =>
      simp only [List.isPrefixOf, Bool.and_eq_true] at h
      have : a = c := eq_of_beq h.1
      simp [this]

theorem pfx_fits (p x y : List Char) (h : p.length ≤ x.length) :
    p.isPrefixOf (x ++ y) = p.isPrefixOf x := by
  induction p generalizing x with
  | nil => simp [List.isPrefixOf]
  | cons a p' ih =>
      cases x with
      | nil => simp at h
      | cons b x' =>
          simp only [List.cons_append, List.isPrefixOf, List.append_eq]
          rw [ih x' (by simpa using h)]

theorem pfx_long (p x y : List Char) (h : x.length < p.length)
    (hp : p.isPrefixOf (x ++ y) = true) :
    x = p.take x.length ∧ (p.drop x.length).isPrefixOf y = true := by
  induction x generalizing p with
  | nil => simpa using hp
  | cons b x' ih =>
      cases p with
      | nil => simp at h
      | cons a p' =>
          simp only [List.cons_append, List.isPrefixOf, Bool.and_eq_true] at hp
          have hab : a = b := eq_of_beq hp.1
          have hrec := ih p' (by simpa using h) hp.2
          constructor
          · simp [List.take_succ_cons, ← hab, ← hrec.1]
          · simpa [List.drop_succ_cons] using hrec.2

theorem occursIn_iff (pat s : List Char) :
    occursIn pat s = true ↔ ∃ i, pat.isPrefixOf (s.drop i) = true := by
  induction s with
  | nil =>
      cases pat with
      | nil => simp [occursIn, List.isPrefixOf]
      | cons a as => simp [occursIn, List.isPrefixOf]
  | cons c cs ih =>
      simp only [occursIn, Bool.or_eq_true]
      constructor
      · rintro (h | h)
        · exact ⟨0, h⟩
        · obtain ⟨i, hi⟩ := ih.mp h
          exact ⟨i + 1, by simpa using hi⟩
      · rintro ⟨i, hi⟩
        cases i with
        | zero => exact Or.inl hi
        | succ j => exact Or.inr (ih.mpr ⟨j, by simpa using hi⟩)

theorem occursIn_tail (pat : List Char) (c : Char) (cs : List Char)
    (h : occursIn pat cs = true) : occursIn pat (c :: cs) = true := by
  simp [occursIn, h]

theorem occursIn_append_right (pat a b : List Char) (h : occursIn pat b = true) :
    occursIn pat (a ++ b) = true := by
  induction a with
  | nil => simpa
  | cons c a' ih => exact occursIn_tail _ _ _ ih

theorem occursIn_append_left (pat a b : List Char) (h : occursIn pat a = true) :
    occursIn pat (a ++ b) = true := by
  rw [occursIn_iff] at h ⊢
  obtain ⟨i, hi⟩ := h
  by_cases hle : i ≤ a.length
  · exact ⟨i, by rw [List.drop_append_of_le_length hle]; exact pfx_ext _ _ _ hi⟩
  · have hnil : a.drop i = [] := by
      apply List.drop_eq_nil_of_le
      omega
    rw [hnil] at hi
    cases pat with
    | nil => exact ⟨0, by simp [List.isPrefixOf]⟩
    | cons x xs => simp [List.isPrefixOf] at hi

theorem occursIn_drop (pat s : List Char) (i : Nat)
    (h : occursIn pat (s.drop i) = true) : occursIn pat s = true := by
  rw [occursIn_iff] at h ⊢
  obtain ⟨j, hj⟩ := h
  exact ⟨i + j, by rwa [← List.drop_drop]⟩

theorem occursIn_take (pat s : List Char) (n : Nat)
    (h : occursIn pat (s.take n) = true) : occursIn pat s = true := by
  have := occursIn_append_left pat (s.take n) (s.drop n) h
  rwa [List.take_append_drop] at this

theorem occursIn_split (pat a b : List Char) (h : occursIn pat (a ++ b) = true) :
    occursIn pat a = true ∨ occursIn pat b = true ∨
      ∃ k, 0 < k ∧ k < pat.length ∧ (pat.take k).isSuffixOf a = true ∧
        (pat.drop k).isPrefixOf b = true := by
  induction a with
  | nil => exact Or.inr (Or.inl (by simpa using h))
  | cons c a' ih =>
      rw [List.cons_append] at h
      simp only [occursIn, Bool.or_eq_true] at h
      rcases h with h | h
      · by_cases hl : pat.length ≤ (c :: a').length
        · left
          have hfit := pfx_fits pat (c :: a') b hl
          simp only [List.cons_append] at hfit
          rw [h] at hfit
          simp [occursIn, ← hfit]
        · right; right
          have hlong := pfx_long pat (c :: a') b (by omega) (by simpa using h)
          refine ⟨(c :: a').length, by simp, by omega, ?_, hlong.2⟩
          rw [← hlong.1, sfx_iff]
      · rcases ih h with h1 | h2 | ⟨k, hk0, hkl, hsfx, hpfx⟩
        · exact Or.inl (occursIn_tail _ _ _ h1)
        · exact Or.inr (Or.inl h2)
        · refine Or.inr (Or.inr ⟨k, hk0, hkl, ?_, hpfx⟩)
          rw [sfx_iff] at hsfx ⊢
          exact hsfx.trans (List.suffix_cons c a')

theorem occCount_zero (pat s : List Char) (h : occursIn pat s = false) :
    occCount pat s = 0 := by
  induction s with
  | nil =>
      simp only [occursIn] at h
      simp [occCount, h]
  | cons c cs ih =>
      simp only [occursIn, Bool.or_eq_false_iff] at h
      simp [occCount, h.1, ih h.2]

theorem occCount_append (pat a b : List Char) (hpat : pat ≠ [])
    (hstr : ∀ k, 0 < k → k < pat.length →
      ¬((pat.take k).isSuffixOf a = true ∧ (pat.drop k).isPrefixOf b = true)) :
    occCount pat (a ++ b) = occCount pat a + occCount pat b := by
  induction a with
  | nil =>
      have hie : pat.isEmpty = false := by
        cases pat with
        | nil => exact absurd rfl hpat
        | cons x xs => rfl
      simp [occCount, hie]
  | cons c a' ih =>
      have ihs : ∀ k, 0 < k → k < pat.length →
          ¬((pat.take k).isSuffixOf a' = true ∧ (pat.drop k).isPrefixOf b = true) := by
        intro k hk0 hkl ⟨hs, hp⟩
        apply hstr k hk0 hkl
        refine ⟨?_, hp⟩
        rw [sfx_iff] at hs ⊢
        exact hs.trans (List.suffix_cons c a')
      have hhead : pat.isPrefixOf (c :: (a' ++ b)) = pat.isPrefixOf (c :: a') := by
        by_cases hl : pat.length ≤ (c :: a').length
        · have := pfx_fits pat (c :: a') b hl
          simpa using this
        · have h1 : pat.isPrefixOf (c :: (a' ++ b)) = false := by
            by_contra hc
            have hc' : pat.isPrefixOf ((c :: a') ++ b) = true := by
              simpa using Bool.of_not_eq_false hc
            have hlong := pfx_long pat (c :: a') b (by omega) hc'
            apply hstr (c :: a').length (by simp) (by omega)
            refine ⟨?_, hlong.2⟩
            rw [← hlong.1, sfx_iff]
          have h2 : pat.isPrefixOf (c :: a') = false := by
            by_contra hc
            have hc' : pat.isPrefixOf (c :: a') = true := by
              simpa using Bool.of_not_eq_false hc
            exact hl (pfx_len_le _ _ hc')
          rw [h1, h2]
      calc occCount pat ((c :: a') ++ b)
          = (if pat.isPrefixOf (c :: (a' ++ b)) then 1 else 0)
              + occCount pat (a' ++ b) := by simp [occCount]
        _ = (if pat.isPrefixOf (c :: a') then 1 else 0)
              + (occCount pat a' + occCount pat b) := by rw [hhead, ih ihs]
        _ = occCount pat (c :: a') + occCount pat b := by
              simp [occCount]
              omega

/-! Lemmas about the version rewrite. -/

theorem verRepl_nil (n : Nat) : verRepl n [] = [] := by
  cases n <;> rfl

theorem verRepl_fuel : ∀ (n m : Nat) (s : List Char),
    s.length ≤ n → s.length ≤ m → verRepl n s = verRepl m s := by
  intro n
  induction n with
  | zero =>
      intro m s hn _
      have hs : s = [] := List.eq_nil_of_length_eq_zero (Nat.le_zero.mp hn)
      subst hs
      rw [verRepl_nil, verRepl_nil]
  | succ n ih =>
      intro m s hn hm
      cases s with
      | nil => rw [verRepl_nil, verRepl_nil]
      | cons c cs =>
          cases m with
          | zero => simp at hm
          | succ m' =>
              have hcs : cs.length ≤ n := by
                simp only [List.length_cons] at hn; omega
              have hcs' : cs.length ≤ m' := by
                simp only [List.length_cons] at hm; omega
              have hd : (cs.drop 5).length ≤ cs.length := by
                rw [List.length_drop]; omega
              simp only [verRepl]
              by_cases hp : verSrc.isPrefixOf (c :: cs) = true
              · rw [if_pos hp, if_pos hp]
                congr 1
                exact ih m' (cs.drop 5) (le_trans hd hcs) (le_trans hd hcs')
              · rw [if_neg hp, if_neg hp]
                congr 1
                exact ih m' cs hcs hcs'

theorem rV_nil : rV [] = [] := rfl

theorem rV_cons_pos (c : Char) (cs : List Char)
    (hp : verSrc.isPrefixOf (c :: cs) = true) :
    rV (c :: cs) = verTgt ++ rV (cs.drop 5) := by
  show verRepl (c :: cs).length (c :: cs) = _
  simp only [List.length_cons, verRepl, if_pos hp]
  congr 1
  exact verRepl_fuel cs.length (cs.drop 5).length (cs.drop 5)
    (by rw [List.length_drop]; omega) le_rfl

theorem rV_cons_neg (c : Char) (cs : List Char)
    (hp : ¬verSrc.isPrefixOf (c :: cs) = true) :
    rV (c :: cs) = c :: rV cs := by
  show verRepl (c :: cs).length (c :: cs) = _
  simp only [List.length_cons, verRepl, if_neg hp]
  rfl

theorem rV_chain5 (s : List Char) (h : ['5'].isPrefixOf (rV s) = true) :
    ['5'].isPrefixOf s = true := by
  cases s with
  | nil => simp [rV_nil, List.isPrefixOf] at h
  | cons c cs =>
      by_cases hp : verSrc.isPrefixOf (c :: cs) = true
      · rw [rV_cons_pos c cs hp] at h
        simp [verTgt, List.isPrefixOf] at h
      · rw [rV_cons_neg c cs hp] at h
        simpa [List.isPrefixOf] using h

theorem rV_chain4 (s : List Char) (h : ['1', '5'].isPrefixOf (rV s) = true) :
    ['1', '5'].isPrefixOf s = true := by
  cases s with
  | nil => simp [rV_nil, List.isPrefixOf] at h
  | cons c cs =>
      by_cases hp : verSrc.isPrefixOf (c :: cs) = true
      · rw [rV_cons_pos c cs hp] at h
        simp [verTgt, List.isPrefixOf] at h
      · rw [rV_cons_neg c cs hp] at h
        simp only [List.isPrefixOf, Bool.and_eq_true] at h ⊢
        exact ⟨h.1, rV_chain5 cs h.2⟩

theorem rV_chain3 (s : List Char) (h : ['0', '1', '5'].isPrefixOf (rV s) = true) :
    ['0', '1', '5'].isPrefixOf s = true := by
  cases s with
  | nil => simp [rV_nil, List.isPrefixOf] at h
  | cons c cs =>
      by_cases hp : verSrc.isPrefixOf (c :: cs) = true
      · rw [rV_cons_pos c cs hp] at h
        simp [verTgt, List.isPrefixOf] at h
      · rw [rV_cons_neg c cs hp] at h
        simp only [List.isPrefixOf, Bool.and_eq_true] at h ⊢
        exact ⟨h.1, rV_chain4 cs h.2⟩

theorem rV_chain2 (s : List Char) (h : ['1', '0', '1', '5'].isPrefixOf (rV s) = true) :
    ['1', '0', '1', '5'].isPrefixOf s = true := by
  cases s with
  | nil => simp [rV_nil, List.isPrefixOf] at h
  | cons c cs =>
      by_cases hp : verSrc.isPrefixOf (c :: cs) = true
      · rw [rV_cons_pos c cs hp] at h
        simp [verTgt, List.isPrefixOf] at h
      · rw [rV_cons_neg c cs hp] at h
        simp only [List.isPrefixOf, Bool.and_eq_true] at h ⊢
        exact ⟨h.1, rV_chain3 cs h.2⟩

theorem rV_chain1 (s : List Char) (h : ['C', '1', '0', '1', '5'].isPrefixOf (rV s) = true) :
    ['C', '1', '0', '1', '5'].isPrefixOf s = true := by
  cases s with
  | nil => simp [rV_nil, List.isPrefixOf] at h
  | cons c cs =>
      by_cases hp : verSrc.isPrefixOf (c :: cs) = true
      · rw [rV_cons_pos c cs hp] at h
        simp [verTgt, List.isPrefixOf] at h
      · rw [rV_cons_neg c cs hp] at h
        simp only [List.isPrefixOf, Bool.and_eq_true] at h ⊢
        exact ⟨h.1, rV_chain2 cs h.2⟩

theorem rV_no_pfx (s : List Char) : verSrc.isPrefixOf (rV s) = false := by
  cases s with
  | nil => rfl
  | cons c cs =>
      by_cases hp : verSrc.isPrefixOf (c :: cs) = true
      · rw [rV_cons_pos c cs hp]
        simp [verSrc, verTgt, List.isPrefixOf]
      · rw [rV_cons_neg c cs hp]
        by_contra hcon
        have htrue : verSrc.isPrefixOf (c :: rV cs) = true := by
          revert hcon
          cases verSrc.isPrefixOf (c :: rV cs) <;> simp
        apply hp
        simp only [verSrc, List.isPrefixOf, Bool.and_eq_true] at htrue ⊢
        exact ⟨htrue.1, rV_chain1 cs htrue.2⟩

theorem rV_no_occur (s0 : List Char) : occursIn verSrc (rV s0) = false := by
  have H : ∀ n, ∀ s : List Char, s.length ≤ n → occursIn verSrc (rV s) = false := by
    intro n
    induction n with
    | zero =>
        intro s hs
        have hnil : s = [] := List.eq_nil_of_length_eq_zero (Nat.le_zero.mp hs)
        subst hnil
        rfl
    | succ n ih =>
        intro s hs
        cases s with
        | nil => rfl
        | cons c cs =>
            have hlcs : cs.length ≤ n := by
              simp only [List.length_cons] at hs; omega
            by_cases hp : verSrc.isPrefixOf (c :: cs) = true
            · rw [rV_cons_pos c cs hp]
              have hX : occursIn verSrc (rV (cs.drop 5)) = false :=
                ih (cs.drop 5) (le_trans (by rw [List.length_drop]; omega) hlcs)
              simp [verTgt, verSrc, occursIn, List.isPrefixOf]
              simpa [verSrc] using hX
            · rw [rV_cons_neg c cs hp]
              have h0 : verSrc.isPrefixOf (c :: rV cs) = false := by
                rw [← rV_cons_neg c cs hp]
                exact rV_no_pfx (c :: cs)
              simp [occursIn, h0, ih cs hlcs]
  exact H s0.length s0 le_rfl

theorem rV_id_of_no_occur (s0 : List Char) (h0 : occursIn verSrc s0 = false) :
    rV s0 = s0 := by
  have H : ∀ n, ∀ s : List Char, s.length ≤ n →
      occursIn verSrc s = false → rV s = s := by
    intro n
    induction n with
    | zero =>
        intro s hs _
        have hnil : s = [] := List.eq_nil_of_length_eq_zero (Nat.le_zero.mp hs)
        subst hnil
        rfl
    | succ n ih =>
        intro s hs h
        cases s with
        | nil => rfl
        | cons c cs =>
            have hlcs : cs.length ≤ n := by
              simp only [List.length_cons] at hs; omega
            simp only [occursIn, Bool.or_eq_false_iff] at h
            rw [rV_cons_neg c cs (by simp [h.1]), ih cs hlcs h.2]
  exact H s0.length s0 le_rfl h0

theorem rV_idem (s : List Char) : rV (rV s) = rV s :=
  rV_id_of_no_occur _ (rV_no_occur s)

theorem rV_creates_tgt (s0 : List Char) (h0 : occursIn verSrc s0 = true) :
    occursIn verTgt (rV s0) = true := by
  have H : ∀ n, ∀ s : List Char, s.length ≤ n →
      occursIn verSrc s = true → occursIn verTgt (rV s) = true := by
    intro n
    induction n with
    | zero =>
        intro s hs h
        have hnil : s = [] := List.eq_nil_of_length_eq_zero (Nat.le_zero.mp hs)
        subst hnil
        exact absurd h (by decide)
    | succ n ih =>
        intro s hs h
        cases s with
        | nil => exact absurd h (by decide)
        | cons c cs =>
            have hlcs : cs.length ≤ n := by
              simp only [List.length_cons] at hs; omega
            by_cases hp : verSrc.isPrefixOf (c :: cs) = true
            · rw [rV_cons_pos c cs hp]
              simp [verTgt, occursIn, List.isPrefixOf]
            · rw [rV_cons_neg c cs hp]
              simp only [occursIn, Bool.or_eq_true] at h
              rcases h with h | h
              · exact absurd h hp
              · exact occursIn_tail _ _ _ (ih cs hlcs h)
  exact H s0.length s0 le_rfl h0

/-! Lemmas about the unit-directive matcher and the substitution scan. -/

theorem pfx_parts (p s : List Char) (h : p.isPrefixOf s = true) :
    s = p ++ s.drop p.length := by
  rw [pfx_iff] at h
  conv_lhs => rw [← List.take_append_drop p.length s]
  congr 1
  exact (List.prefix_iff_eq_take.mp h).symm

theorem matchIns_nil : matchIns [] = none := by decide

theorem matchIns_none_of_head (c : Char) (cs : List Char) (hc : c ≠ '$') :
    matchIns (c :: cs) = none := by
  have hbe : ('$' == c) = false := by
    rw [beq_eq_false_iff_ne]
    exact fun he => hc he.symm
  have h : insHead.isPrefixOf (c :: cs) = false := by
    simp [insHead, List.isPrefixOf, hbe]
  rw [matchIns, if_neg (by simp [h])]

theorem matchIns_some_parts (s g r : List Char) (h : matchIns s = some (g, r)) :
    ∃ ws1 ws2 d,
      g = insHead ++ ws1 ++ g70 ++ ws2 ∧
      s = g ++ (d ++ r) ∧
      (∀ x ∈ ws1, pySpace x = true) ∧
      (∀ x ∈ ws2, pySpace x = true) ∧
      d ≠ [] ∧ (∀ x ∈ d, pyDigit x = true) ∧
      (∀ a, r.head? = some a → pyDigit a = false) := by
  by_cases h1 : insHead.isPrefixOf s = true
  · by_cases h2 : g70.isPrefixOf ((s.drop 10).dropWhile pySpace) = true
    · by_cases h3 :
          ((((s.drop 10).dropWhile pySpace).drop 3).dropWhile pySpace).takeWhile pyDigit = []
      · rw [matchIns, if_pos h1, if_pos h2, if_pos h3] at h
        exact absurd h (by simp)
      · rw [matchIns, if_pos h1, if_pos h2, if_neg h3] at h
        simp only [Option.some.injEq, Prod.mk.injEq] at h
        obtain ⟨hg, hr⟩ := h
        refine ⟨(s.drop 10).takeWhile pySpace,
          (((s.drop 10).dropWhile pySpace).drop 3).takeWhile pySpace,
          ((((s.drop 10).dropWhile pySpace).drop 3).dropWhile pySpace).takeWhile pyDigit,
          ?_, ?_, ?_, ?_, ?_, ?_, ?_⟩
        · rw [← hg]
        · rw [← hg, ← hr]
          have e1 : s = insHead ++ s.drop 10 := by
            have := pfx_parts insHead s h1
            simpa using this
          have e2 : s.drop 10
              = (s.drop 10).takeWhile pySpace ++ (s.drop 10).dropWhile pySpace :=
            (List.takeWhile_append_dropWhile pySpace (s.drop 10)).symm
          have e3 : (s.drop 10).dropWhile pySpace
              = g70 ++ ((s.drop 10).dropWhile pySpace).drop 3 := by
            have := pfx_parts g70 ((s.drop 10).dropWhile pySpace) h2
            simpa using this
          have e4 : ((s.drop 10).dropWhile pySpace).drop 3
              = (((s.drop 10).dropWhile pySpace).drop 3).takeWhile pySpace
                ++ (((s.drop 10).dropWhile pySpace).drop 3).dropWhile pySpace :=
            (List.takeWhile_append_dropWhile pySpace _).symm
          have e5 : (((s.drop 10).dropWhile pySpace).drop 3).dropWhile pySpace
              = ((((s.drop 10).dropWhile pySpace).drop 3).dropWhile pySpace).takeWhile pyDigit
                ++ ((((s.drop 10).dropWhile pySpace).drop 3).dropWhile pySpace).dropWhile pyDigit :=
            (List.takeWhile_append_dropWhile pyDigit _).symm
          conv_lhs => rw [e1, e2, e3, e4, e5]
          simp [List.append_assoc]
        · intro x hx; exact List.mem_takeWhile_imp hx
        · intro x hx; exact List.mem_takeWhile_imp hx
        · exact h3
        · intro x hx; exact List.mem_takeWhile_imp hx
        · intro a ha
          rw [← hr] at ha
          have := List.head?_dropWhile_not pyDigit
            ((((s.drop 10).dropWhile pySpace).drop 3).dropWhile pySpace)
          rw [ha] at this
          simpa using this
    · rw [matchIns, if_pos h1, if_neg h2] at h
      exact absurd h (by simp)
  · rw [matchIns, if_neg h1] at h
    exact absurd h (by simp)

theorem matchIns_some_len (s g r : List Char) (h : matchIns s = some (g, r)) :
    r.length + 11 ≤ s.length := by
  obtain ⟨ws1, ws2, d, hg, hs, _, _, hd, _, _⟩ := matchIns_some_parts s g r h
  have hgl : 10 ≤ g.length := by
    rw [hg]
    simp [insHead, g70]
  have hdl : 1 ≤ d.length := by
    cases d with
    | nil => exact absurd rfl hd
    | cons x xs => simp
  have : s.length = g.length + (d.length + r.length) := by
    rw [hs]; simp
  omega

theorem subRepl_nil (n : Nat) : subRepl n [] = [] := by
  cases n <;> rfl

theorem subRepl_fuel : ∀ (n m : Nat) (s : List Char),
    s.length ≤ n → s.length ≤ m → subRepl n s = subRepl m s := by
  intro n
  induction n with
  | zero =>
      intro m s hn _
      have hs : s = [] := List.eq_nil_of_length_eq_zero (Nat.le_zero.mp hn)
      subst hs
      rw [subRepl_nil, subRepl_nil]
  | succ n ih =>
      intro m s hn hm
      cases s with
      | nil => rw [subRepl_nil, subRepl_nil]
      | cons c cs =>
          cases m with
          | zero => simp at hm
          | succ m' =>
              have hcs : cs.length ≤ n := by
                simp only [List.length_cons] at hn; omega
              have hcs' : cs.length ≤ m' := by
                simp only [List.length_cons] at hm; omega
              simp only [subRepl]
              cases hmi : matchIns (c :: cs) with
              | some gr =>
                  obtain ⟨g, r⟩ := gr
                  have hrl : r.length ≤ cs.length := by
                    have := matchIns_some_len (c :: cs) g r hmi
                    simp only [List.length_cons] at this
                    omega
                  show g ++ '6' :: subRepl n r = g ++ '6' :: subRepl m' r
                  exact congrArg _ (congrArg _
                    (ih m' r (le_trans hrl hcs) (le_trans hrl hcs')))
              | none =>
                  show c :: subRepl n cs = c :: subRepl m' cs
                  exact congrArg _ (ih m' cs hcs hcs')

theorem subAll_nil : subAll [] = [] := rfl

theorem subAll_cons_none (c : Char) (cs : List Char)
    (h : matchIns (c :: cs) = none) :
    subAll (c :: cs) = c :: subAll cs := by
  show subRepl (c :: cs).length (c :: cs) = _
  simp only [List.length_cons, subRepl, h]
  rfl

theorem subAll_some (s g r : List Char) (h : matchIns s = some (g, r)) :
    subAll s = g ++ '6' :: subAll r := by
  cases s with
  | nil => rw [matchIns_nil] at h; exact absurd h (by simp)
  | cons c cs =>
      have hrl : r.length ≤ cs.length := by
        have := matchIns_some_len (c :: cs) g r h
        simp only [List.length_cons] at this
        omega
      show subRepl (c :: cs).length (c :: cs) = _
      simp only [List.length_cons, subRepl, h]
      congr 2
      exact subRepl_fuel cs.length r.length r hrl le_rfl

/-! Small helpers on character classes and prefixes. -/

theorem pfx_refl (p : List Char) : p.isPrefixOf p = true := by
  rw [pfx_iff]

theorem pfx_trans (p q s : List Char) (h1 : p.isPrefixOf q = true)
    (h2 : q.isPrefixOf s = true) : p.isPrefixOf s = true := by
  rw [pfx_iff] at h1 h2 ⊢
  exact h1.trans h2

theorem occursIn_of_pfx (pat x : List Char) (hpat : pat ≠ [])
    (h : pat.isPrefixOf x = true) : occursIn pat x = true := by
  cases x with
  | nil =>
      cases pat with
      | nil => exact absurd rfl hpat
      | cons a as => simp [List.isPrefixOf] at h
  | cons c cs => simp [occursIn, h]

theorem occursIn_at (pat x : List Char) (i : Nat)
    (h : pat.isPrefixOf (x.drop i) = true) : occursIn pat x = true :=
  (occursIn_iff pat x).mpr ⟨i, h⟩

theorem occursIn_head_notin (h : Char) (pt a x : List Char)
    (ha : ∀ c ∈ a, c ≠ h) :
    occursIn (h :: pt) (a ++ x) = occursIn (h :: pt) x := by
  induction a with
  | nil => rfl
  | cons c a' ih =>
      have hch : (h == c) = false := by
        rw [beq_eq_false_iff_ne]
        exact fun he => ha c (List.mem_cons_self c a') he.symm
      simp only [List.cons_append, occursIn, List.isPrefixOf, hch,
        Bool.false_and, Bool.false_or]
      exact ih fun c hc => ha c (List.mem_cons_of_mem _ hc)

theorem pySpace_elim (c : Char) (h : pySpace c = true) :
    c = ' ' ∨ c = '\t' ∨ c = '\n' ∨ c = '\r' ∨ c = '\x0b' ∨ c = '\x0c' := by
  have h' := h
  simp only [pySpace, Bool.or_eq_true, beq_iff_eq] at h'
  tauto

theorem pySpace_not_digit (c : Char) (h : pySpace c = true) : pyDigit c = false := by
  rcases pySpace_elim c h with h | h | h | h | h | h <;> subst h <;> decide

theorem pyDigit_not_space (c : Char) (h : pyDigit c = true) : pySpace c = false := by
  by_contra hc
  have hs : pySpace c = true := by
    revert hc; cases pySpace c <;> simp
  rw [pySpace_not_digit c hs] at h
  exact absurd h (by simp)

theorem pySpace_ne_of (c b : Char) (h : pySpace c = true) (hb : pySpace b = false) :
    c ≠ b := by
  intro he
  subst he
  rw [h] at hb
  exact absurd hb (by simp)

theorem pyDigit_ne_of (c b : Char) (h : pyDigit c = true) (hb : pyDigit b = false) :
    c ≠ b := by
  intro he
  subst he
  rw [h] at hb
  exact absurd hb (by simp)

theorem tw_append (q : Char → Bool) (a y : List Char) (ha : ∀ x ∈ a, q x = true) :
    (a ++ y).takeWhile q = a ++ y.takeWhile q ∧
    (a ++ y).dropWhile q = y.dropWhile q := by
  induction a with
  | nil => exact ⟨rfl, rfl⟩
  | cons c a' ih =>
      have hc : q c = true := ha c (List.mem_cons_self c a')
      have ih' := ih fun x hx => ha x (List.mem_cons_of_mem _ hx)
      constructor
      · simp [List.takeWhile_cons, hc, ih'.1]
      · simp [List.dropWhile_cons, hc, ih'.2]

theorem tw_stop (q : Char → Bool) (c : Char) (cs : List Char) (hc : q c = false) :
    (c :: cs).takeWhile q = [] ∧ (c :: cs).dropWhile q = c :: cs := by
  constructor
  · simp [List.takeWhile_cons, hc]
  · simp [List.dropWhile_cons, hc]

/-! Transfer lemmas between a document and its substituted form. -/

theorem matchIns_some_heads (s g r : List Char) (h : matchIns s = some (g, r)) :
    (∃ gt, g = '$' :: gt) ∧ (∃ st, s = '$' :: st) := by
  obtain ⟨ws1, ws2, d, hg, hs, _⟩ := matchIns_some_parts s g r h
  have hg' : ∃ gt, g = '$' :: gt := by
    refine ⟨(insTok.drop 1) ++ ['\n'] ++ ws1 ++ g70 ++ ws2, ?_⟩
    rw [hg]
    simp [insHead, insTok]
  obtain ⟨gt, hgt⟩ := hg'
  refine ⟨⟨gt, hgt⟩, ⟨gt ++ (d ++ r), ?_⟩⟩
  rw [hs, hgt]
  simp

theorem subAll_copy (p : List Char) (hp : ∀ x ∈ p, x ≠ '$') :
    ∀ t, subAll (p ++ t) = p ++ subAll t := by
  induction p with
  | nil => intro t; rfl
  | cons a p' ih =>
      intro t
      have hm : matchIns (a :: (p' ++ t)) = none :=
        matchIns_none_of_head a (p' ++ t) (hp a (List.mem_cons_self a p'))
      rw [List.cons_append, subAll_cons_none a (p' ++ t) hm,
        ih (fun x hx => hp x (List.mem_cons_of_mem _ hx)) t]
      rfl

theorem subAll_pfx_back : ∀ (p : List Char), (∀ x ∈ p, x ≠ '$') →
    ∀ t, p.isPrefixOf (subAll t) = true → p.isPrefixOf t = true := by
  intro p
  induction p with
  | nil => intro _ t _; cases t <;> rfl
  | cons a p' ih =>
      intro hp t h
      cases t with
      | nil =>
          rw [subAll_nil] at h
          simp [List.isPrefixOf] at h
      | cons c cs =>
          cases hm : matchIns (c :: cs) with
          | some gr =>
              obtain ⟨g, r⟩ := gr
              rw [subAll_some (c :: cs) g r hm] at h
              obtain ⟨⟨gt, hgt⟩, _⟩ := matchIns_some_heads (c :: cs) g r hm
              rw [hgt] at h
              simp only [List.cons_append, List.isPrefixOf, Bool.and_eq_true] at h
              exact absurd (eq_of_beq h.1) (hp a (List.mem_cons_self a p'))
          | none =>
              rw [subAll_cons_none c cs hm] at h
              simp only [List.isPrefixOf, Bool.and_eq_true] at h ⊢
              exact ⟨h.1, ih (fun x hx => hp x (List.mem_cons_of_mem _ hx)) cs h.2⟩

theorem subAll_pfx_fwd (p : List Char) (hp : ∀ x ∈ p, x ≠ '$')
    (t : List Char) (h : p.isPrefixOf t = true) :
    p.isPrefixOf (subAll t) = true := by
  have ht : t = p ++ t.drop p.length := pfx_parts p t h
  rw [ht, subAll_copy p hp]
  exact pfx_ext p p _ (pfx_refl p)

theorem subAll_while (q : Char → Bool) (hq : q '$' = false) (t0 : List Char) :
    (subAll t0).takeWhile q = t0.takeWhile q ∧
    (subAll t0).dropWhile q = subAll (t0.dropWhile q) := by
  have H : ∀ n, ∀ t : List Char, t.length ≤ n →
      (subAll t).takeWhile q = t.takeWhile q ∧
      (subAll t).dropWhile q = subAll (t.dropWhile q) := by
    intro n
    induction n with
    | zero =>
        intro t ht
        have hnil : t = [] := List.eq_nil_of_length_eq_zero (Nat.le_zero.mp ht)
        subst hnil
        exact ⟨rfl, rfl⟩
    | succ n ih =>
        intro t ht
        cases t with
        | nil => exact ⟨rfl, rfl⟩
        | cons c cs =>
            have hlcs : cs.length ≤ n := by
              simp only [List.length_cons] at ht; omega
            cases hm : matchIns (c :: cs) with
            | some gr =>
                obtain ⟨g, r⟩ := gr
                obtain ⟨⟨gt, hgt⟩, ⟨st, hst⟩⟩ := matchIns_some_heads (c :: cs) g r hm
                have hc : c = '$' := by
                  injection hst with h1 h2
                subst hc
                rw [subAll_some ('$' :: cs) g r hm, hgt]
                simp only [List.cons_append]
                constructor
                · rw [(tw_stop q '$' (gt ++ '6' :: subAll r) hq).1,
                    (tw_stop q '$' cs hq).1]
                · rw [(tw_stop q '$' (gt ++ '6' :: subAll r) hq).2,
                    (tw_stop q '$' cs hq).2, ← List.cons_append, ← hgt,
                    ← subAll_some ('$' :: cs) g r hm]
            | none =>
                rw [subAll_cons_none c cs hm]
                cases hqc : q c with
                | true =>
                    constructor
                    · simp [List.takeWhile_cons, hqc, (ih cs hlcs).1]
                    · simp [List.dropWhile_cons, hqc, (ih cs hlcs).2]
                | false =>
                    constructor
                    · rw [(tw_stop q c (subAll cs) hqc).1, (tw_stop q c cs hqc).1]
                    · rw [(tw_stop q c (subAll cs) hqc).2, (tw_stop q c cs hqc).2,
                        subAll_cons_none c cs hm]
  exact H t0.length t0 le_rfl

theorem subAll_head_nondigit (r : List Char)
    (h : ∀ x, r.head? = some x → pyDigit x = false) :
    ∀ x, (subAll r).head? = some x → pyDigit x = false := by
  intro x hx
  cases r with
  | nil => rw [subAll_nil] at hx; simp at hx
  | cons c cs =>
      cases hm : matchIns (c :: cs) with
      | some gr =>
          obtain ⟨g, rr⟩ := gr
          obtain ⟨⟨gt, hgt⟩, _⟩ := matchIns_some_heads (c :: cs) g rr hm
          rw [subAll_some (c :: cs) g rr hm, hgt] at hx
          simp only [List.cons_append, List.head?_cons, Option.some.injEq] at hx
          rw [← hx]
          decide
      | none =>
          rw [subAll_cons_none c cs hm] at hx
          simp only [List.head?_cons, Option.some.injEq] at hx
          rw [← hx]
          exact h c rfl

/-- The regex matcher succeeds exactly on a record built from the
directive head, a whitespace run, the group code, a second whitespace
run and a nonempty digit run followed by non-digit text, and captures
everything up to the digit run. -/
theorem matchIns_build (ws1 ws2 d x : List Char)
    (h1 : ∀ c ∈ ws1, pySpace c = true) (h2 : ∀ c ∈ ws2, pySpace c = true)
    (hd : d ≠ []) (hdd : ∀ c ∈ d, pyDigit c = true)
    (hx : ∀ c, x.head? = some c → pyDigit c = false) :
    matchIns (insHead ++ ws1 ++ g70 ++ ws2 ++ d ++ x)
      = some (insHead ++ ws1 ++ g70 ++ ws2, x) := by
  have h7 : pySpace '7' = false := by decide
  obtain ⟨e, d', hde⟩ : ∃ e d', d = e :: d' := by
    cases d with
    | nil => exact absurd rfl hd
    | cons e d' => exact ⟨e, d', rfl⟩
  have he : pyDigit e = true := hdd e (by rw [hde]; exact List.mem_cons_self e d')
  have hes : pySpace e = false := pyDigit_not_space e he
  have hxtw : x.takeWhile pyDigit = [] := by
    cases x with
    | nil => rfl
    | cons a x' => exact (tw_stop pyDigit a x' (hx a rfl)).1
  have hxdw : x.dropWhile pyDigit = x := by
    cases x with
    | nil => rfl
    | cons a x' => exact (tw_stop pyDigit a x' (hx a rfl)).2
  have hdx1 : (d ++ x).takeWhile pySpace = [] := by
    rw [hde, List.cons_append]
    exact (tw_stop pySpace e (d' ++ x) hes).1
  have hdx2 : (d ++ x).dropWhile pySpace = d ++ x := by
    rw [hde, List.cons_append]
    exact (tw_stop pySpace e (d' ++ x) hes).2
  have hdtw : (d ++ x).takeWhile pyDigit = d := by
    rw [(tw_append pyDigit d x hdd).1, hxtw, List.append_nil]
  have hddw : (d ++ x).dropWhile pyDigit = x := by
    rw [(tw_append pyDigit d x hdd).2, hxdw]
  have hg70tw : ∀ Y : List Char, (g70 ++ Y).takeWhile pySpace = [] :=
    fun Y => (tw_stop pySpace '7' ('0' :: '\n' :: Y) h7).1
  have hg70dw : ∀ Y : List Char, (g70 ++ Y).dropWhile pySpace = g70 ++ Y :=
    fun Y => (tw_stop pySpace '7' ('0' :: '\n' :: Y) h7).2
  have e0 : insHead ++ ws1 ++ g70 ++ ws2 ++ d ++ x
      = insHead ++ (ws1 ++ (g70 ++ (ws2 ++ (d ++ x)))) := by
    simp [List.append_assoc]
  have hA : insHead.isPrefixOf (insHead ++ ws1 ++ g70 ++ ws2 ++ d ++ x) = true := by
    rw [e0]
    exact pfx_ext _ _ _ (pfx_refl insHead)
  have h10 : insHead.length = 10 := rfl
  have hdrop : (insHead ++ ws1 ++ g70 ++ ws2 ++ d ++ x).drop 10
      = ws1 ++ (g70 ++ (ws2 ++ (d ++ x))) := by
    rw [e0, ← h10, List.drop_left]
  have htw1 : ((insHead ++ ws1 ++ g70 ++ ws2 ++ d ++ x).drop 10).takeWhile pySpace
      = ws1 := by
    rw [hdrop, (tw_append pySpace ws1 (g70 ++ (ws2 ++ (d ++ x))) h1).1,
      hg70tw, List.append_nil]
  have hdw1 : ((insHead ++ ws1 ++ g70 ++ ws2 ++ d ++ x).drop 10).dropWhile pySpace
      = g70 ++ (ws2 ++ (d ++ x)) := by
    rw [hdrop, (tw_append pySpace ws1 (g70 ++ (ws2 ++ (d ++ x))) h1).2, hg70dw]
  have hB : g70.isPrefixOf
      (((insHead ++ ws1 ++ g70 ++ ws2 ++ d ++ x).drop 10).dropWhile pySpace) = true := by
    rw [hdw1]
    exact pfx_ext _ _ _ (pfx_refl g70)
  have h3 : g70.length = 3 := rfl
  have hdrop3 : (((insHead ++ ws1 ++ g70 ++ ws2 ++ d ++ x).drop 10).dropWhile
      pySpace).drop 3 = ws2 ++ (d ++ x) := by
    rw [hdw1, ← h3, List.drop_left]
  have hT2 : ((((insHead ++ ws1 ++ g70 ++ ws2 ++ d ++ x).drop 10).dropWhile
      pySpace).drop 3).takeWhile pySpace = ws2 := by
    rw [hdrop3, (tw_append pySpace ws2 (d ++ x) h2).1, hdx1, List.append_nil]
  have hC : ((((insHead ++ ws1 ++ g70 ++ ws2 ++ d ++ x).drop 10).dropWhile
      pySpace).drop 3).dropWhile pySpace = d ++ x := by
    rw [hdrop3, (tw_append pySpace ws2 (d ++ x) h2).2, hdx2]
  have hTD : (((((insHead ++ ws1 ++ g70 ++ ws2 ++ d ++ x).drop 10).dropWhile
      pySpace).drop 3).dropWhile pySpace).takeWhile pyDigit = d := by
    rw [hC, hdtw]
  have hDD : (((((insHead ++ ws1 ++ g70 ++ ws2 ++ d ++ x).drop 10).dropWhile
      pySpace).drop 3).dropWhile pySpace).dropWhile pyDigit = x := by
    rw [hC, hddw]
  simp only [matchIns]
  rw [if_pos hA, if_pos hB, if_neg (by rw [hTD]; exact hd), htw1, hT2, hDD]

theorem matchIns_some_insHead (s g r : List Char) (h : matchIns s = some (g, r)) :
    insHead.isPrefixOf s = true := by
  obtain ⟨ws1, ws2, d, hg, hs, _⟩ := matchIns_some_parts s g r h
  rw [hs, hg]
  have hsh : (insHead ++ ws1 ++ g70 ++ ws2) ++ (d ++ r)
      = insHead ++ (ws1 ++ (g70 ++ (ws2 ++ (d ++ r)))) := by
    simp [List.append_assoc]
  rw [hsh]
  exact pfx_ext _ _ _ (pfx_refl insHead)

theorem matchIns_rematch (s g r : List Char) (h : matchIns s = some (g, r))
    (x : List Char) (hx : ∀ c, x.head? = some c → pyDigit c = false) :
    matchIns (g ++ '6' :: x) = some (g, x) := by
  obtain ⟨ws1, ws2, d, hg, _, hws1, hws2, _, _, _⟩ := matchIns_some_parts s g r h
  have hb := matchIns_build ws1 ws2 ['6'] x hws1 hws2 (by decide)
    (by intro c hc; simp at hc; subst hc; decide) hx
  have hshape : insHead ++ ws1 ++ g70 ++ ws2 ++ ['6'] ++ x = g ++ '6' :: x := by
    rw [hg]
    simp [List.append_assoc]
  rw [hshape, ← hg] at hb
  exact hb

theorem subAll_id_of_no_match : ∀ (t : List Char),
    (∀ i, matchIns (t.drop i) = none) → subAll t = t := by
  intro t
  induction t with
  | nil => intro _; rfl
  | cons c cs ih =>
      intro h
      have h0 : matchIns (c :: cs) = none := by simpa using h 0
      rw [subAll_cons_none c cs h0, ih fun i => by simpa using h (i + 1)]

theorem matchIns_drop_occurs (t : List Char) (i : Nat)
    (h : matchIns (t.drop i) ≠ none) : occursIn insTok t = true := by
  cases hm : matchIns (t.drop i) with
  | none => exact absurd hm h
  | some gr =>
      obtain ⟨g, r⟩ := gr
      have hpre := matchIns_some_insHead (t.drop i) g r hm
      exact occursIn_at insTok t i (pfx_trans insTok insHead _ (by decide) hpre)

theorem subAll_id_of_no_tok (t : List Char) (h : occursIn insTok t = false) :
    subAll t = t := by
  apply subAll_id_of_no_match
  intro i
  by_contra hm
  exact absurd (matchIns_drop_occurs t i hm) (by simp [h])

theorem subAll_skip : ∀ (X R : List Char),
    (∀ i, i < X.length → matchIns ((X ++ R).drop i) = none) →
    subAll (X ++ R) = X ++ subAll R := by
  intro X
  induction X with
  | nil => intro R _; rfl
  | cons c X' ih =>
      intro R h
      have h0 : matchIns (c :: (X' ++ R)) = none := by
        simpa using h 0 (by simp)
      rw [List.cons_append, subAll_cons_none _ _ h0, ih R ?_]
      · rfl
      · intro i hi
        have := h (i + 1) (by simp only [List.length_cons]; omega)
        simpa using this

theorem no_match_within (X R : List Char) (hX : occursIn insTok X = false)
    (hR : ∀ k, 1 ≤ k → k ≤ 8 → (insHead.drop k).isPrefixOf R = false) :
    ∀ i, i < X.length → matchIns ((X ++ R).drop i) = none := by
  intro i hi
  cases hm : matchIns ((X ++ R).drop i) with
  | none => rfl
  | some gr =>
      exfalso
      obtain ⟨g, r⟩ := gr
      have hpre := matchIns_some_insHead _ g r hm
      rw [List.drop_append_of_le_length (le_of_lt hi)] at hpre
      by_cases hfit : insHead.length ≤ (X.drop i).length
      · rw [pfx_fits _ _ _ hfit] at hpre
        exact absurd (occursIn_at insTok X i
          (pfx_trans insTok insHead _ (by decide) hpre)) (by simp [hX])
      · obtain ⟨heq, hrest⟩ := pfx_long insHead (X.drop i) R (by omega) hpre
        have hm1 : 1 ≤ (X.drop i).length := by
          rw [List.length_drop]
          omega
        have hm9 : (X.drop i).length ≤ 9 := by
          have : insHead.length = 10 := rfl
          omega
        by_cases hm8 : (X.drop i).length ≤ 8
        · rw [hR (X.drop i).length hm1 hm8] at hrest
          simp at hrest
        · have hm9' : (X.drop i).length = 9 := by omega
          have h9 : insHead.take ((X.drop i).length) = insTok := by
            rw [hm9']
            decide
          have hpf : insTok.isPrefixOf (X.drop i) = true := by
            rw [heq, h9]
            exact pfx_refl insTok
          exact absurd (occursIn_at insTok X i hpf) (by simp [hX])

theorem matchIns_some_conds (s g r : List Char) (h : matchIns s = some (g, r)) :
    insHead.isPrefixOf s = true ∧
    g70.isPrefixOf ((s.drop 10).dropWhile pySpace) = true ∧
    ¬((((s.drop 10).dropWhile pySpace).drop 3).dropWhile pySpace).takeWhile pyDigit
        = [] := by
  by_cases h1 : insHead.isPrefixOf s = true
  · by_cases h2 : g70.isPrefixOf ((s.drop 10).dropWhile pySpace) = true
    · by_cases h3 :
          ((((s.drop 10).dropWhile pySpace).drop 3).dropWhile pySpace).takeWhile pyDigit = []
      · rw [matchIns, if_pos h1, if_pos h2, if_pos h3] at h
        exact absurd h (by simp)
      · exact ⟨h1, h2, h3⟩
    · rw [matchIns, if_pos h1, if_neg h2] at h
      exact absurd h (by simp)
  · rw [matchIns, if_neg h1] at h
    exact absurd h (by simp)

theorem matchIns_of_conds (s : List Char)
    (h1 : insHead.isPrefixOf s = true)
    (h2 : g70.isPrefixOf ((s.drop 10).dropWhile pySpace) = true)
    (h3 : ¬((((s.drop 10).dropWhile pySpace).drop 3).dropWhile pySpace).takeWhile
        pyDigit = []) :
    matchIns s
      = some (insHead ++ (s.drop 10).takeWhile pySpace ++ g70
          ++ ((((s.drop 10).dropWhile pySpace).drop 3).takeWhile pySpace),
        ((((s.drop 10).dropWhile pySpace).drop 3).dropWhile pySpace).dropWhile
          pyDigit) := by
  rw [matchIns, if_pos h1, if_pos h2, if_neg h3]

theorem matchIns_stable_none (c : Char) (cs : List Char)
    (hm : matchIns (c :: cs) = none) :
    matchIns (c :: subAll cs) = none := by
  by_cases hc : c = '$'
  case neg => exact matchIns_none_of_head c (subAll cs) hc
  subst hc
  cases hs : matchIns ('$' :: subAll cs) with
  | none => rfl
  | some gr =>
      exfalso
      obtain ⟨g, r⟩ := gr
      obtain ⟨h1', h2', h3'⟩ := matchIns_some_conds _ g r hs
      have h1t : (['I', 'N', 'S', 'U', 'N', 'I', 'T', 'S', '\n'] : List Char).isPrefixOf
          (subAll cs) = true := by
        simpa [insHead, List.isPrefixOf] using h1'
      have hITcs : (['I', 'N', 'S', 'U', 'N', 'I', 'T', 'S', '\n'] : List Char).isPrefixOf
          cs = true :=
        subAll_pfx_back _ (by decide) cs h1t
      have hcs : cs = ['I', 'N', 'S', 'U', 'N', 'I', 'T', 'S', '\n'] ++ cs.drop 9 := by
        simpa using pfx_parts _ cs hITcs
      have hsub : subAll cs
          = ['I', 'N', 'S', 'U', 'N', 'I', 'T', 'S', '\n'] ++ subAll (cs.drop 9) := by
        conv_lhs => rw [hcs]
        exact subAll_copy _ (by decide) _
      have E1 : ('$' :: subAll cs).drop 10 = subAll (cs.drop 9) := by
        rw [hsub]
        rfl
      have E2 : (subAll (cs.drop 9)).dropWhile pySpace
          = subAll ((cs.drop 9).dropWhile pySpace) :=
        (subAll_while pySpace (by decide) (cs.drop 9)).2
      have hg70u : g70.isPrefixOf ((cs.drop 9).dropWhile pySpace) = true := by
        rw [E1, E2] at h2'
        exact subAll_pfx_back g70 (by decide) _ h2'
      have hu : (cs.drop 9).dropWhile pySpace
          = g70 ++ ((cs.drop 9).dropWhile pySpace).drop 3 := by
        simpa using pfx_parts g70 _ hg70u
      have E3 : subAll ((cs.drop 9).dropWhile pySpace)
          = g70 ++ subAll (((cs.drop 9).dropWhile pySpace).drop 3) := by
        conv_lhs => rw [hu]
        exact subAll_copy g70 (by decide) _
      have E4 : (subAll ((cs.drop 9).dropWhile pySpace)).drop 3
          = subAll (((cs.drop 9).dropWhile pySpace).drop 3) := by
        rw [E3]
        rfl
      have E5 : (subAll (((cs.drop 9).dropWhile pySpace).drop 3)).dropWhile pySpace
          = subAll ((((cs.drop 9).dropWhile pySpace).drop 3).dropWhile pySpace) :=
        (subAll_while pySpace (by decide) _).2
      have E6 : (subAll ((((cs.drop 9).dropWhile pySpace).drop 3).dropWhile
          pySpace)).takeWhile pyDigit
          = ((((cs.drop 9).dropWhile pySpace).drop 3).dropWhile pySpace).takeWhile
            pyDigit :=
        (subAll_while pyDigit (by decide) _).1
      have h3cs : ¬((((cs.drop 9).dropWhile pySpace).drop 3).dropWhile
          pySpace).takeWhile pyDigit = [] := by
        rw [E1, E2, E4, E5, E6] at h3'
        exact h3'
      have c1 : insHead.isPrefixOf ('$' :: cs) = true := by
        have hshape : ('$' :: cs)
            = insHead ++ cs.drop 9 := by
          conv_lhs => rw [hcs]
          rfl
        rw [hshape]
        exact pfx_ext _ _ _ (pfx_refl insHead)
      have hbuild := matchIns_of_conds ('$' :: cs) c1
        (by
          rw [show ('$' :: cs).drop 10 = cs.drop 9 from rfl]
          exact hg70u)
        (by
          rw [show ('$' :: cs).drop 10 = cs.drop 9 from rfl]
          exact h3cs)
      rw [hm] at hbuild
      exact absurd hbuild (by simp)

theorem occursIn_not_in_suffix (pat X r : List Char)
    (h : occursIn pat X = false) (hsub : ∃ a, X = a ++ r) :
    occursIn pat r = false := by
  obtain ⟨a, ha⟩ := hsub
  by_contra hc
  have hr : occursIn pat r = true := by
    revert hc; cases occursIn pat r <;> simp
  have := occursIn_append_right pat a r hr
  rw [← ha] at this
  rw [this] at h
  exact absurd h (by simp)

theorem subAll_no_new_verSrc (t0 : List Char) (h0 : occursIn verSrc t0 = false) :
    occursIn verSrc (subAll t0) = false := by
  have H : ∀ n, ∀ t : List Char, t.length ≤ n →
      occursIn verSrc t = false → occursIn verSrc (subAll t) = false := by
    intro n
    induction n with
    | zero =>
        intro t ht _
        have hnil : t = [] := List.eq_nil_of_length_eq_zero (Nat.le_zero.mp ht)
        subst hnil
        rfl
    | succ n ih =>
        intro t ht h
        cases t with
        | nil => rfl
        | cons c cs =>
            have hlcs : cs.length ≤ n := by
              simp only [List.length_cons] at ht; omega
            simp only [occursIn, Bool.or_eq_false_iff] at h
            obtain ⟨hA, hB⟩ := h
            cases hm : matchIns (c :: cs) with
            | none =>
                rw [subAll_cons_none c cs hm]
                simp only [occursIn, Bool.or_eq_false_iff]
                refine ⟨?_, ih cs hlcs hB⟩
                by_contra hcon
                have hcon' : verSrc.isPrefixOf (c :: subAll cs) = true := by
                  revert hcon; cases verSrc.isPrefixOf (c :: subAll cs) <;> simp
                simp only [verSrc, List.isPrefixOf, Bool.and_eq_true] at hcon'
                have htail : (['C', '1', '0', '1', '5'] : List Char).isPrefixOf cs = true :=
                  subAll_pfx_back _ (by decide) cs hcon'.2
                have : verSrc.isPrefixOf (c :: cs) = true := by
                  simp only [verSrc, List.isPrefixOf, Bool.and_eq_true]
                  exact ⟨hcon'.1, htail⟩
                rw [this] at hA
                exact absurd hA (by simp)
            | some gr =>
                obtain ⟨g, r⟩ := gr
                rw [subAll_some (c :: cs) g r hm]
                obtain ⟨ws1, ws2, d, hg, hs, hws1, hws2, _, _, _⟩ :=
                  matchIns_some_parts (c :: cs) g r hm
                have hrB : occursIn verSrc r = false := by
                  apply occursIn_not_in_suffix verSrc (c :: cs) r
                  · simp [occursIn, hA, hB]
                  · exact ⟨g ++ d, by rw [hs]; simp [List.append_assoc]⟩
                have hrl : r.length ≤ n := by
                  have := matchIns_some_len (c :: cs) g r hm
                  simp only [List.length_cons] at this
                  omega
                have hmem : ∀ x ∈ g ++ ['6'], x ≠ 'A' := by
                  intro x hx
                  rcases List.mem_append.mp hx with hx | hx
                  · rw [hg] at hx
                    rcases List.mem_append.mp hx with hx | hx
                    · rcases List.mem_append.mp hx with hx | hx
                      · rcases List.mem_append.mp hx with hx | hx
                        · exact (by decide : ∀ y ∈ insHead, y ≠ 'A') x hx
                        · exact pySpace_ne_of x 'A' (hws1 x hx) (by decide)
                      · exact (by decide : ∀ y ∈ g70, y ≠ 'A') x hx
                    · exact pySpace_ne_of x 'A' (hws2 x hx) (by decide)
                  · simp at hx
                    subst hx
                    decide
                have hsplit : g ++ '6' :: subAll r = (g ++ ['6']) ++ subAll r := by
                  simp
                rw [hsplit,
                  show (verSrc : List Char) = 'A' :: ['C', '1', '0', '1', '5'] from rfl,
                  occursIn_head_notin 'A' ['C', '1', '0', '1', '5'] (g ++ ['6'])
                    (subAll r) hmem]
                exact ih r hrl hrB
  exact H t0.length t0 le_rfl h0

theorem subAll_preserves_insTok (t0 : List Char) (h0 : occursIn insTok t0 = true) :
    occursIn insTok (subAll t0) = true := by
  have H : ∀ n, ∀ t : List Char, t.length ≤ n →
      occursIn insTok t = true → occursIn insTok (subAll t) = true := by
    intro n
    induction n with
    | zero =>
        intro t ht h
        have hnil : t = [] := List.eq_nil_of_length_eq_zero (Nat.le_zero.mp ht)
        subst hnil
        exact absurd h (by decide)
    | succ n ih =>
        intro t ht h
        cases t with
        | nil => exact absurd h (by decide)
        | cons c cs =>
            have hlcs : cs.length ≤ n := by
              simp only [List.length_cons] at ht; omega
            cases hm : matchIns (c :: cs) with
            | some gr =>
                obtain ⟨g, r⟩ := gr
                rw [subAll_some (c :: cs) g r hm]
                obtain ⟨ws1, ws2, d, hg, _, _⟩ := matchIns_some_parts (c :: cs) g r hm
                apply occursIn_of_pfx insTok _ (by decide)
                apply pfx_trans insTok insHead _ (by decide)
                rw [hg]
                have hshape : ((insHead ++ ws1 ++ g70 ++ ws2) ++ '6' :: subAll r)
                    = insHead ++ (ws1 ++ (g70 ++ (ws2 ++ '6' :: subAll r))) := by
                  simp [List.append_assoc]
                rw [hshape]
                exact pfx_ext _ _ _ (pfx_refl insHead)
            | none =>
                rw [subAll_cons_none c cs hm]
                simp only [occursIn, Bool.or_eq_true] at h
                rcases h with h | h
                · simp only [insTok, List.isPrefixOf, Bool.and_eq_true] at h
                  have hfwd := subAll_pfx_fwd
                    (['I', 'N', 'S', 'U', 'N', 'I', 'T', 'S'] : List Char)
                    (by decide) cs h.2
                  simp only [occursIn, Bool.or_eq_true]
                  left
                  simp only [insTok, List.isPrefixOf, Bool.and_eq_true]
                  exact ⟨h.1, hfwd⟩
                · exact occursIn_tail _ _ _ (ih cs hlcs h)
  exact H t0.length t0 le_rfl h0

theorem subAll_idem (t0 : List Char) : subAll (subAll t0) = subAll t0 := by
  have H : ∀ n, ∀ t : List Char, t.length ≤ n → subAll (subAll t) = subAll t := by
    intro n
    induction n with
    | zero =>
        intro t ht
        have hnil : t = [] := List.eq_nil_of_length_eq_zero (Nat.le_zero.mp ht)
        subst hnil
        rfl
    | succ n ih =>
        intro t ht
        cases t with
        | nil => rfl
        | cons c cs =>
            have hlcs : cs.length ≤ n := by
              simp only [List.length_cons] at ht; omega
            cases hm : matchIns (c :: cs) with
            | none =>
                rw [subAll_cons_none c cs hm,
                  subAll_cons_none c (subAll cs) (matchIns_stable_none c cs hm),
                  ih cs hlcs]
            | some gr =>
                obtain ⟨g, r⟩ := gr
                obtain ⟨ws1, ws2, d, hg, hs, hws1, hws2, hd, hdd, hrh⟩ :=
                  matchIns_some_parts (c :: cs) g r hm
                have hrl : r.length ≤ n := by
                  have := matchIns_some_len (c :: cs) g r hm
                  simp only [List.length_cons] at this
                  omega
                rw [subAll_some (c :: cs) g r hm,
                  subAll_some (g ++ '6' :: subAll r) g (subAll r)
                    (matchIns_rematch (c :: cs) g r hm (subAll r)
                      (subAll_head_nondigit r hrh)),
                  ih r hrl]
  exact H t0.length t0 le_rfl

/-! Specification of the find-based insertion point computation. -/

theorem bool_false_of_not {b : Bool} (h : ¬b = true) : b = false := by
  cases b
  · rfl
  · exact absurd rfl h

theorem occFrom_some (pat : List Char) : ∀ (t : List Char) (i j : Nat),
    occFrom pat t i = some j →
    i ≤ j ∧ pat.isPrefixOf (t.drop (j - i)) = true ∧
      ∀ k, k < j - i → pat.isPrefixOf (t.drop k) = false := by
  intro t
  induction t with
  | nil =>
      intro i j h
      simp only [occFrom] at h
      by_cases hp : pat.isEmpty = true
      · rw [if_pos hp] at h
        have hij : i = j := by
          injection h
        subst hij
        refine ⟨le_rfl, ?_, fun k hk => absurd hk (by omega)⟩
        have hpe : pat = [] := by
          cases pat with
          | nil => rfl
          | cons a as => simp at hp
        subst hpe
        rw [List.drop_nil]
        rfl
      · rw [if_neg hp] at h
        exact absurd h (by simp)
  | cons c cs ih =>
      intro i j h
      simp only [occFrom] at h
      by_cases hp : pat.isPrefixOf (c :: cs) = true
      · rw [if_pos hp] at h
        have hij : i = j := by
          injection h
        subst hij
        exact ⟨le_rfl, by simpa using hp, fun k hk => absurd hk (by omega)⟩
      · rw [if_neg hp] at h
        obtain ⟨h1, h2, h3⟩ := ih (i + 1) j h
        refine ⟨by omega, ?_, ?_⟩
        · have hji : j - i = (j - (i + 1)) + 1 := by omega
          rw [hji, List.drop_succ_cons]
          exact h2
        · intro k hk
          cases k with
          | zero => simpa using bool_false_of_not hp
          | succ k' =>
              rw [List.drop_succ_cons]
              exact h3 k' (by omega)

theorem occFrom_none (pat : List Char) : ∀ (t : List Char) (i : Nat),
    occFrom pat t i = none → ∀ k, pat.isPrefixOf (t.drop k) = false := by
  intro t
  induction t with
  | nil =>
      intro i h k
      simp only [occFrom] at h
      by_cases hp : pat.isEmpty = true
      · rw [if_pos hp] at h
        exact absurd h (by simp)
      · cases pat with
        | nil => exact absurd rfl hp
        | cons a as =>
            rw [List.drop_nil]
            rfl
  | cons c cs ih =>
      intro i h k
      simp only [occFrom] at h
      by_cases hp : pat.isPrefixOf (c :: cs) = true
      · rw [if_pos hp] at h
        exact absurd h (by simp)
      · rw [if_neg hp] at h
        cases k with
        | zero => simpa using bool_false_of_not hp
        | succ k' =>
            rw [List.drop_succ_cons]
            exact ih (i + 1) h k'

theorem pyFind_some (s pat : List Char) (start j : Nat)
    (h : pyFind s pat start = some j) :
    start ≤ j ∧ pat.isPrefixOf (s.drop j) = true ∧
      ∀ k, start ≤ k → k < j → pat.isPrefixOf (s.drop k) = false := by
  obtain ⟨h1, h2, h3⟩ := occFrom_some pat (s.drop start) start j h
  refine ⟨h1, ?_, ?_⟩
  · rw [List.drop_drop, (by omega : start + (j - start) = j)] at h2
    exact h2
  · intro k hk1 hk2
    have := h3 (k - start) (by omega)
    rw [List.drop_drop, (by omega : start + (k - start) = k)] at this
    exact this

theorem pyFind_none (s pat : List Char) (start : Nat)
    (h : pyFind s pat start = none) :
    ∀ k, start ≤ k → pat.isPrefixOf (s.drop k) = false := by
  intro k hk
  have := occFrom_none pat (s.drop start) start h (k - start)
  rw [List.drop_drop, (by omega : start + (k - start) = k)] at this
  exact this

theorem headerEnd_none_iff (s : List Char) :
    headerEnd s = none ↔ ¬hasHeaderPair s := by
  constructor
  · intro h hpair
    obtain ⟨i, j, hij, hhead, hend⟩ := hpair
    cases hh : pyFind s hdrTok 0 with
    | none =>
        have := pyFind_none s hdrTok 0 hh i (by omega)
        rw [this] at hhead
        exact absurd hhead (by simp)
    | some hpos =>
        simp only [headerEnd, hh] at h
        obtain ⟨_, _, hmin⟩ := pyFind_some s hdrTok 0 hpos hh
        have hile : hpos ≤ i := by
          by_contra hlt
          have := hmin i (by omega) (by omega)
          rw [this] at hhead
          exact absurd hhead (by simp)
        have := pyFind_none s endTok hpos h j (by omega)
        rw [this] at hend
        exact absurd hend (by simp)
  · intro hnp
    cases hh : pyFind s hdrTok 0 with
    | none =>
        simp only [headerEnd, hh]
        cases he : pyFind s endTok (s.length - 1) with
        | none => rfl
        | some j =>
            exfalso
            obtain ⟨hj1, hj2, _⟩ := pyFind_some s endTok (s.length - 1) j he
            have hlen := pfx_len_le endTok (s.drop j) hj2
            rw [List.length_drop] at hlen
            have h6 : (6 : Nat) ≤ s.length - j := by simpa [endTok] using hlen
            omega
    | some hpos =>
        simp only [headerEnd, hh]
        cases he : pyFind s endTok hpos with
        | none => rfl
        | some j =>
            exfalso
            apply hnp
            obtain ⟨hj1, hj2, _⟩ := pyFind_some s endTok hpos j he
            obtain ⟨_, hh2, _⟩ := pyFind_some s hdrTok 0 hpos hh
            exact ⟨hpos, j, hj1, hh2, hj2⟩

theorem headerEnd_some_spec (s : List Char) (he : Nat) (h : headerEnd s = some he) :
    endTok.isPrefixOf (s.drop he) = true ∧
    ∃ hp, hp ≤ he ∧ hdrTok.isPrefixOf (s.drop hp) = true ∧
      (∀ k, k < hp → hdrTok.isPrefixOf (s.drop k) = false) ∧
      (∀ k, hp ≤ k → k < he → endTok.isPrefixOf (s.drop k) = false) := by
  cases hh : pyFind s hdrTok 0 with
  | none =>
      simp only [headerEnd, hh] at h
      obtain ⟨hj1, hj2, _⟩ := pyFind_some s endTok (s.length - 1) he h
      have hlen := pfx_len_le endTok (s.drop he) hj2
      rw [List.length_drop] at hlen
      have h6 : (6 : Nat) ≤ s.length - he := by simpa [endTok] using hlen
      omega
  | some hp =>
      simp only [headerEnd, hh] at h
      obtain ⟨hp1, hp2, hp3⟩ := pyFind_some s hdrTok 0 hp hh
      obtain ⟨he1, he2, he3⟩ := pyFind_some s endTok hp he h
      exact ⟨he2, hp, he1, hp2, fun k hk => hp3 k (by omega) hk, he3⟩

/-! Lemmas about the three branches of the patch. -/

theorem bool_true_of_not {b : Bool} (h : ¬b = false) : b = true := by
  cases b
  · exact absurd rfl h
  · rfl

theorem patchDxf_sub (s : List Char) (h : occursIn insTok (rV s) = true) :
    patchDxf s = subAll (rV s) := by
  simp only [patchDxf]
  rw [if_pos h]

theorem patchDxf_insert (s : List Char) (h : occursIn insTok (rV s) = false)
    (he : Nat) (hhe : headerEnd (rV s) = some he) :
    patchDxf s = (rV s).take he ++ unitsDef ++ (rV s).drop he := by
  simp only [patchDxf]
  rw [if_neg (by simp [h]), hhe]

theorem patchDxf_skip (s : List Char) (h : occursIn insTok (rV s) = false)
    (hhe : headerEnd (rV s) = none) :
    patchDxf s = rV s := by
  simp only [patchDxf]
  rw [if_neg (by simp [h]), hhe]

theorem insert_no_verSrc (y : List Char) (hy : occursIn verSrc y = false) (he : Nat) :
    occursIn verSrc (y.take he ++ unitsDef ++ y.drop he) = false := by
  by_contra hcn
  have hc : occursIn verSrc (y.take he ++ unitsDef ++ y.drop he) = true :=
    bool_true_of_not hcn
  rw [List.append_assoc] at hc
  rcases occursIn_split verSrc (y.take he) (unitsDef ++ y.drop he) hc with
    h1 | h1 | ⟨k, hk0, hkl, hsf, hpf⟩
  · rw [occursIn_take verSrc y he h1] at hy
    exact absurd hy (by simp)
  · rcases occursIn_split verSrc unitsDef (y.drop he) h1 with
      h2 | h2 | ⟨k, hk0, hkl, hsf, hpf⟩
    · exact absurd h2 (by decide)
    · rw [occursIn_drop verSrc y he h2] at hy
      exact absurd hy (by simp)
    · have hkl6 : k < 6 := by simpa [verSrc] using hkl
      interval_cases k
      · exact absurd hsf (by decide)
      · exact absurd hsf (by decide)
      · exact absurd hsf (by decide)
      · exact absurd hsf (by decide)
      · exact absurd hsf (by decide)
  · have hkl6 : k < 6 := by simpa [verSrc] using hkl
    have hsh : unitsDef ++ y.drop he
        = '\n' :: (['$', 'I', 'N', 'S', 'U', 'N', 'I', 'T', 'S', '\n',
            ' ', '7', '0', '\n', ' ', ' ', ' ', ' ', ' ', '6', '\n'] ++ y.drop he) := rfl
    rw [hsh] at hpf
    interval_cases k <;> simp [List.isPrefixOf, verSrc] at hpf

theorem occursIn_take_false (pat y : List Char) (n : Nat)
    (hy : occursIn pat y = false) : occursIn pat (y.take n) = false := by
  by_contra hcn
  rw [occursIn_take pat y n (bool_true_of_not hcn)] at hy
  exact absurd hy (by simp)

theorem occursIn_drop_false (pat y : List Char) (n : Nat)
    (hy : occursIn pat y = false) : occursIn pat (y.drop n) = false := by
  by_contra hcn
  rw [occursIn_drop pat y n (bool_true_of_not hcn)] at hy
  exact absurd hy (by simp)

theorem insert_count_one (y : List Char) (hy : occursIn insTok y = false) (he : Nat) :
    occCount insTok (y.take he ++ unitsDef ++ y.drop he) = 1 := by
  have hstr1 : ∀ k, 0 < k → k < insTok.length →
      ¬((insTok.take k).isSuffixOf (y.take he) = true ∧
        (insTok.drop k).isPrefixOf (unitsDef ++ y.drop he) = true) := by
    intro k hk0 hkl ⟨_, hpf⟩
    have hkl9 : k < 9 := by simpa [insTok] using hkl
    have hsh : unitsDef ++ y.drop he
        = '\n' :: (['$', 'I', 'N', 'S', 'U', 'N', 'I', 'T', 'S', '\n',
            ' ', '7', '0', '\n', ' ', ' ', ' ', ' ', ' ', '6', '\n'] ++ y.drop he) := rfl
    rw [hsh] at hpf
    interval_cases k <;> simp [List.isPrefixOf, insTok] at hpf
  have hstr2 : ∀ k, 0 < k → k < insTok.length →
      ¬((insTok.take k).isSuffixOf unitsDef = true ∧
        (insTok.drop k).isPrefixOf (y.drop he) = true) := by
    intro k hk0 hkl ⟨hsf, _⟩
    have hkl9 : k < 9 := by simpa [insTok] using hkl
    interval_cases k
    · exact absurd hsf (by decide)
    · exact absurd hsf (by decide)
    · exact absurd hsf (by decide)
    · exact absurd hsf (by decide)
    · exact absurd hsf (by decide)
    · exact absurd hsf (by decide)
    · exact absurd hsf (by decide)
    · exact absurd hsf (by decide)
  rw [List.append_assoc,
    occCount_append insTok (y.take he) (unitsDef ++ y.drop he) (by decide) hstr1,
    occCount_append insTok unitsDef (y.drop he) (by decide) hstr2,
    occCount_zero insTok (y.take he) (occursIn_take_false insTok y he hy),
    occCount_zero insTok (y.drop he) (occursIn_drop_false insTok y he hy),
    (by decide : occCount insTok unitsDef = 1)]

theorem insert_has_insTok (y : List Char) (he : Nat) :
    occursIn insTok (y.take he ++ unitsDef ++ y.drop he) = true := by
  rw [List.append_assoc]
  exact occursIn_append_right insTok (y.take he) _
    (occursIn_append_left insTok unitsDef (y.drop he) (by decide))

theorem subAll_insert_id (y : List Char) (hy : occursIn insTok y = false) (he : Nat) :
    subAll (y.take he ++ unitsDef ++ y.drop he)
      = y.take he ++ unitsDef ++ y.drop he := by
  have hX : occursIn insTok (y.take he) = false := occursIn_take_false insTok y he hy
  have hY : occursIn insTok (y.drop he) = false := occursIn_drop_false insTok y he hy
  have hR : ∀ k, 1 ≤ k → k ≤ 8 →
      (insHead.drop k).isPrefixOf (unitsDef ++ y.drop he) = false := by
    intro k hk1 hk8
    by_contra hcn
    have hpf : (insHead.drop k).isPrefixOf (unitsDef ++ y.drop he) = true :=
      bool_true_of_not hcn
    have hsh : unitsDef ++ y.drop he
        = '\n' :: (['$', 'I', 'N', 'S', 'U', 'N', 'I', 'T', 'S', '\n',
            ' ', '7', '0', '\n', ' ', ' ', ' ', ' ', ' ', '6', '\n'] ++ y.drop he) := rfl
    rw [hsh] at hpf
    interval_cases k <;> simp [List.isPrefixOf, insHead] at hpf
  rw [List.append_assoc,
    subAll_skip (y.take he) (unitsDef ++ y.drop he)
      (no_match_within (y.take he) (unitsDef ++ y.drop he) hX hR)]
  congr 1
  have hsh : unitsDef ++ y.drop he
      = '\n' :: (['$', 'I', 'N', 'S', 'U', 'N', 'I', 'T', 'S', '\n',
          ' ', '7', '0', '\n', ' ', ' ', ' ', ' ', ' ', '6', '\n'] ++ y.drop he) := rfl
  have hb := matchIns_build [' '] [' ', ' ', ' ', ' ', ' '] ['6'] ('\n' :: y.drop he)
    (by decide) (by decide) (by decide) (by decide)
    (by
      intro c hc
      simp only [List.head?_cons, Option.some.injEq] at hc
      rw [← hc]
      decide)
  have hshape : (['$', 'I', 'N', 'S', 'U', 'N', 'I', 'T', 'S', '\n',
      ' ', '7', '0', '\n', ' ', ' ', ' ', ' ', ' ', '6', '\n'] : List Char) ++ y.drop he
      = insHead ++ [' '] ++ g70 ++ [' ', ' ', ' ', ' ', ' '] ++ ['6']
        ++ ('\n' :: y.drop he) := rfl
  rw [hsh, subAll_cons_none '\n' _ (matchIns_none_of_head '\n' _ (by decide)),
    hshape, subAll_some _ _ _ hb,
    subAll_cons_none '\n' _ (matchIns_none_of_head '\n' _ (by decide)),
    subAll_id_of_no_tok _ hY]
  rfl

theorem patchDxf_no_verSrc (s : List Char) :
    occursIn verSrc (patchDxf s) = false := by
  by_cases h : occursIn insTok (rV s) = true
  · rw [patchDxf_sub s h]
    exact subAll_no_new_verSrc (rV s) (rV_no_occur s)
  · have h' := bool_false_of_not h
    cases hhe : headerEnd (rV s) with
    | none =>
        rw [patchDxf_skip s h' hhe]
        exact rV_no_occur s
    | some he =>
        rw [patchDxf_insert s h' he hhe]
        exact insert_no_verSrc (rV s) (rV_no_occur s) he

/-! Claim theorems on the header patch. -/

/-- C1 counterexample: on a document with no HEADER section and no
unit directive but containing the version token, the patch produces a
new document in which the version has been rewritten while the unit
step did nothing — a partially patched document is delivered and no
failure is signaled, so the transform is not transactional as
claimed. -/
theorem C1_counterexample :
    headerEnd (rV "AC1015\nDATA".toList) = none ∧
    occursIn insTok (rV "AC1015\nDATA".toList) = false ∧
    patchDxf "AC1015\nDATA".toList = "AC1021\nDATA".toList ∧
    patchDxf "AC1015\nDATA".toList ≠ "AC1015\nDATA".toList ∧
    occursIn insTok (patchDxf "AC1015\nDATA".toList) = false := by
  decide

/-- C1 amended: the version rewrite always completes (no source token
is left in any output); the unit step completes whenever the rewritten
document has a HEADER-ENDSEC pair or an existing directive (the output
then contains the directive); when it has neither, the patch silently
returns the version-rewritten document only — a partial patch rather
than a failure. -/
theorem C1_patch_steps (s : List Char) :
    occursIn verSrc (patchDxf s) = false ∧
    ((hasHeaderPair (rV s) ∨ occursIn insTok (rV s) = true) →
      occursIn insTok (patchDxf s) = true) ∧
    (¬hasHeaderPair (rV s) → occursIn insTok (rV s) = false →
      patchDxf s = rV s) := by
  refine ⟨patchDxf_no_verSrc s, ?_, ?_⟩
  · intro hor
    by_cases h : occursIn insTok (rV s) = true
    · rw [patchDxf_sub s h]
      exact subAll_preserves_insTok (rV s) h
    · have h' := bool_false_of_not h
      rcases hor with hp | hp
      · cases hhe : headerEnd (rV s) with
        | none => exact absurd hp ((headerEnd_none_iff _).mp hhe)
        | some he =>
            rw [patchDxf_insert s h' he hhe]
            exact insert_has_insTok (rV s) he
      · exact absurd hp h
  · intro hnp h'
    exact patchDxf_skip s h' ((headerEnd_none_iff _).mpr hnp)

/-- Witness for C1 amended: a document with an existing directive gets
a directive in the output; a document with neither HEADER nor
directive is returned as the bare version rewrite. -/
theorem C1_patch_steps_witness :
    occursIn insTok
      (patchDxf "HEADER\n$INSUNITS\n 70\n     0\nENDSEC\n".toList) = true ∧
    patchDxf "plain text".toList = rV "plain text".toList :=
  ⟨(C1_patch_steps "HEADER\n$INSUNITS\n 70\n     0\nENDSEC\n".toList).2.1
      (Or.inr (by decide)),
   (C1_patch_steps "plain text".toList).2.2
      ((headerEnd_none_iff _).mp (by decide)) (by decide)⟩

/-- C2 counterexample: on a document with no HEADER-ENDSEC pair and no
unit directive, the patch does not fail at all — it succeeds and
returns the version-rewritten document, where the claim demands a
MalformedHeader failure. -/
theorem C2_counterexample :
    headerEnd (rV "NOHEAD AC1015".toList) = none ∧
    occursIn insTok (rV "NOHEAD AC1015".toList) = false ∧
    patchDxf "NOHEAD AC1015".toList = "NOHEAD AC1021".toList := by
  decide

/-- C2 amended: the patch never signals MalformedHeader; when the
document has no HEADER-ENDSEC pair and no unit directive, the unit
step is silently skipped and the version-rewritten document is
returned as the successful result (no directive is added). -/
theorem C2_silently_skips (s : List Char) (hno : ¬hasHeaderPair (rV s))
    (htok : occursIn insTok (rV s) = false) :
    patchDxf s = rV s ∧ occursIn insTok (patchDxf s) = false := by
  have hhe := (headerEnd_none_iff (rV s)).mpr hno
  refine ⟨patchDxf_skip s htok hhe, ?_⟩
  rw [patchDxf_skip s htok hhe]
  exact htok

/-- Witness for C2 amended at a concrete headerless document. -/
theorem C2_silently_skips_witness :
    patchDxf "NO SECTIONS AC1015 HERE".toList
      = rV "NO SECTIONS AC1015 HERE".toList ∧
    occursIn insTok (patchDxf "NO SECTIONS AC1015 HERE".toList) = false :=
  C2_silently_skips "NO SECTIONS AC1015 HERE".toList
    ((headerEnd_none_iff _).mp (by decide)) (by decide)

/-- C3: the version rewrite replaces every occurrence of AC1015 in the
whole document (none survives in any output), rewriting them to AC1021
(any document containing the source token yields an output containing
the target token), and on the scenario-A document — where the token
sits outside the HEADER section — the patched output carries AC1021 in
place of AC1015. -/
theorem C3_version_rewrite_global :
    (∀ s : List Char, occursIn verSrc (rV s) = false) ∧
    (∀ s : List Char, occursIn verSrc s = true → occursIn verTgt (rV s) = true) ∧
    patchDxf "HEADER\n$INSUNITS\n 70\n     0\nENDSEC\nAC1015\n".toList
      = "HEADER\n$INSUNITS\n 70\n     6\nENDSEC\nAC1021\n".toList ∧
    occursIn verTgt
      (patchDxf "HEADER\n$INSUNITS\n 70\n     0\nENDSEC\nAC1015\n".toList) = true ∧
    occursIn verSrc
      (patchDxf "HEADER\n$INSUNITS\n 70\n     0\nENDSEC\nAC1015\n".toList) = false :=
  ⟨rV_no_occur, rV_creates_tgt, by decide, by decide, by decide⟩

/-- Witness for C3 at a document whose version token sits outside any
section. -/
theorem C3_version_rewrite_global_witness :
    occursIn verTgt (rV "tail AC1015 tail".toList) = true :=
  C3_version_rewrite_global.2.1 "tail AC1015 tail".toList (by decide)

/-- C4: the substitution rewrites only the digit run of the value line
of an anchored directive record — the directive name line, the group
code line and both whitespace runs are emitted unchanged, and the text
before and after the record is byte-identical; the match anchors on
the directive name (a group-code line belonging to another directive,
as in the second concrete document, is left alone). -/
theorem C4_unit_value_only_replaced :
    (∀ a b ws1 ws2 d : List Char,
        occursIn insTok a = false → occursIn insTok b = false →
        (∀ x ∈ ws1, pySpace x = true) → (∀ x ∈ ws2, pySpace x = true) →
        d ≠ [] → (∀ x ∈ d, pyDigit x = true) →
        (∀ x, b.head? = some x → pyDigit x = false) →
        subAll (a ++ (insHead ++ ws1 ++ g70 ++ ws2 ++ d) ++ b)
          = a ++ (insHead ++ ws1 ++ g70 ++ ws2) ++ '6' :: b) ∧
    patchDxf "HEADER\n$INSUNITS\n 70\n     0\nENDSEC\n".toList
      = "HEADER\n$INSUNITS\n 70\n     6\nENDSEC\n".toList ∧
    patchDxf "HEADER\n$LUNITS\n 70\n     4\n$INSUNITS\n 70\n     0\nENDSEC\n".toList
      = "HEADER\n$LUNITS\n 70\n     4\n$INSUNITS\n 70\n     6\nENDSEC\n".toList := by
  refine ⟨?_, by decide, by decide⟩
  intro a b ws1 ws2 d ha hb hws1 hws2 hd hdd hbh
  have hsh : (insHead ++ ws1 ++ g70 ++ ws2 ++ d) ++ b
      = '$' :: ((['I', 'N', 'S', 'U', 'N', 'I', 'T', 'S', '\n']
          ++ ws1 ++ g70 ++ ws2 ++ d) ++ b) := rfl
  have hshead : ∀ k, 1 ≤ k → k ≤ 8 →
      (insHead.drop k).isPrefixOf ((insHead ++ ws1 ++ g70 ++ ws2 ++ d) ++ b)
        = false := by
    intro k hk1 hk8
    rw [hsh]
    interval_cases k <;> simp [List.isPrefixOf, insHead]
  have hskip := no_match_within a ((insHead ++ ws1 ++ g70 ++ ws2 ++ d) ++ b) ha hshead
  have hbuild := matchIns_build ws1 ws2 d b hws1 hws2 hd hdd hbh
  rw [List.append_assoc, subAll_skip a _ hskip, subAll_some _ _ _ hbuild,
    subAll_id_of_no_tok b hb, ← List.append_assoc]

/-- Witness for C4 at a concrete record surrounded by other text. -/
theorem C4_unit_value_only_replaced_witness :
    subAll ("HEADER\n".toList
        ++ (insHead ++ [' '] ++ g70 ++ [' '] ++ ['0', '7']) ++ "\nENDSEC\n".toList)
      = "HEADER\n".toList ++ (insHead ++ [' '] ++ g70 ++ [' '])
        ++ '6' :: "\nENDSEC\n".toList :=
  C4_unit_value_only_replaced.1 "HEADER\n".toList "\nENDSEC\n".toList
    [' '] [' '] ['0', '7'] (by decide) (by decide) (by decide) (by decide)
    (by decide) (by decide) (by decide)

/-- C5: when the rewritten document has no unit directive but the
insertion point exists, the patch is exactly the insertion of the
units record at the position of the first ENDSEC that follows the
first HEADER (the output drops straight into ENDSEC after the record),
the output contains exactly one directive occurrence, no source
version token survives, and scenario B produces the expected
document. -/
theorem C5_insert_before_endsec (s : List Char)
    (htok : occursIn insTok (rV s) = false)
    (he : Nat) (hhe : headerEnd (rV s) = some he) :
    patchDxf s = (rV s).take he ++ unitsDef ++ (rV s).drop he ∧
    occCount insTok (patchDxf s) = 1 ∧
    endTok.isPrefixOf ((rV s).drop he) = true ∧
    (∃ hp, hp ≤ he ∧ hdrTok.isPrefixOf ((rV s).drop hp) = true ∧
      (∀ k, k < hp → hdrTok.isPrefixOf ((rV s).drop k) = false) ∧
      (∀ k, hp ≤ k → k < he → endTok.isPrefixOf ((rV s).drop k) = false)) ∧
    occursIn verSrc (patchDxf s) = false ∧
    patchDxf "HEADER\nENDSEC\nAC1015\n".toList
      = "HEADER\n\n$INSUNITS\n 70\n     6\nENDSEC\nAC1021\n".toList := by
  have heq := patchDxf_insert s htok he hhe
  obtain ⟨hend, hp, hple, hphdr, hmin, hfirst⟩ := headerEnd_some_spec (rV s) he hhe
  refine ⟨heq, ?_, hend, ⟨hp, hple, hphdr, hmin, hfirst⟩,
    patchDxf_no_verSrc s, by decide⟩
  rw [heq]
  exact insert_count_one (rV s) htok he

/-- Witness for C5 at the scenario-B document, whose insertion point
is index 7. -/
theorem C5_insert_before_endsec_witness :
    patchDxf "HEADER\nENDSEC\nAC1015\n".toList
      = (rV "HEADER\nENDSEC\nAC1015\n".toList).take 7 ++ unitsDef
        ++ (rV "HEADER\nENDSEC\nAC1015\n".toList).drop 7 ∧
    occCount insTok (patchDxf "HEADER\nENDSEC\nAC1015\n".toList) = 1 :=
  ⟨(C5_insert_before_endsec "HEADER\nENDSEC\nAC1015\n".toList
      (by decide) 7 (by decide)).1,
   (C5_insert_before_endsec "HEADER\nENDSEC\nAC1015\n".toList
      (by decide) 7 (by decide)).2.1⟩

/-- C6: the patch is idempotent on every document — patching an
already-patched document changes nothing, in the version rewrite, the
substitution branch, and the insertion branch alike. -/
theorem C6_patch_idempotent (s : List Char) :
    patchDxf (patchDxf s) = patchDxf s := by
  by_cases h : occursIn insTok (rV s) = true
  · rw [patchDxf_sub s h]
    have hid : rV (subAll (rV s)) = subAll (rV s) :=
      rV_id_of_no_occur _ (subAll_no_new_verSrc (rV s) (rV_no_occur s))
    have htok2 : occursIn insTok (rV (subAll (rV s))) = true := by
      rw [hid]
      exact subAll_preserves_insTok (rV s) h
    rw [patchDxf_sub _ htok2, hid, subAll_idem]
  · have h' := bool_false_of_not h
    cases hhe : headerEnd (rV s) with
    | none =>
        rw [patchDxf_skip s h' hhe]
        have hid := rV_idem s
        rw [patchDxf_skip (rV s) (by rw [hid]; exact h') (by rw [hid]; exact hhe),
          hid]
    | some he =>
        rw [patchDxf_insert s h' he hhe]
        have hid : rV ((rV s).take he ++ unitsDef ++ (rV s).drop he)
            = (rV s).take he ++ unitsDef ++ (rV s).drop he :=
          rV_id_of_no_occur _ (insert_no_verSrc (rV s) (rV_no_occur s) he)
        have htok2 : occursIn insTok
            (rV ((rV s).take he ++ unitsDef ++ (rV s).drop he)) = true := by
          rw [hid]
          exact insert_has_insTok (rV s) he
        rw [patchDxf_sub _ htok2, hid, subAll_insert_id (rV s) h' he]

end Dxf
